import Mathlib

set_option maxRecDepth 8000

/-!
Verification of the `bidiff` differ core (crates/bidiff/src/lib.rs and
crates/bidiff/src/hashindex.rs), shallowly embedded in Lean.

Byte buffers are modelled as `List Nat` whose elements are below 256
(predicate `IsBytes`); machine integers are modelled as `Nat`/`Int` with
explicit reductions modulo `2 ^ w` where the Rust code wraps.  Slices are
total (`drop`/`take`), matching the in-bounds behaviour of the source.
-/

namespace Bidiff

/-- All elements of the list are bytes (the Rust buffers have type `[u8]`). -/
def IsBytes (l : List Nat) : Prop := ∀ x ∈ l, x < 256

/-- `sliceL l s n` models the Rust slice `l[s .. s + n]` (total). -/
def sliceL (l : List Nat) (s n : Nat) : List Nat := (l.drop s).take n

theorem sliceL_length (l : List Nat) (s n : Nat) :
    (sliceL l s n).length = min n (l.length - s) := by
  simp [sliceL]

theorem IsBytes.drop {l : List Nat} (h : IsBytes l) (s : Nat) : IsBytes (l.drop s) :=
  fun x hx => h x (List.mem_of_mem_drop hx)

theorem IsBytes.take {l : List Nat} (h : IsBytes l) (n : Nat) : IsBytes (l.take n) :=
  fun x hx => h x (List.mem_of_mem_take hx)

theorem IsBytes.sliceL {l : List Nat} (h : IsBytes l) (s n : Nat) :
    IsBytes (Bidiff.sliceL l s n) :=
  (h.drop s).take n

theorem IsBytes.getD {l : List Nat} (h : IsBytes l) {i : Nat} (hi : i < l.length) :
    l.getD i 0 < 256 := by
  rw [List.getD_eq_getElem l 0 hi]
  exact h _ (l.getElem_mem hi)

/-! ### `common_prefix_len` (hashindex.rs lines 23-53)

The source compares eight bytes at a time through a native-endian `u64`
load and `XOR`, locating the first differing byte with
count-trailing-zeros (the little-endian branch of the source), then
finishes byte by byte. -/

/-- `u64::from_ne_bytes` on a little-endian host: least significant byte first. -/
def fromLEBytes (l : List Nat) : Nat := l.foldr (fun b acc => b + 256 * acc) 0

/-- `u64::trailing_zeros` (as a `Nat` function; `ctz 0 = 64` as in Rust). -/
def ctz (x : Nat) : Nat :=
  if h : x = 0 then 64
  else if x % 2 = 1 then 0
  else ctz (x / 2) + 1
termination_by x
decreasing_by exact Nat.div_lt_self (Nat.pos_of_ne_zero h) (by omega)

/-- The scalar tail loop of `common_prefix_len`: compare bytes from `i` up to `n`. -/
def cplTail (a b : List Nat) (n i : Nat) : Nat :=
  if h : i < n then
    if a.getD i 0 ≠ b.getD i 0 then i
    else cplTail a b n (i + 1)
  else n
termination_by n - i

/-- The word loop of `common_prefix_len`: compare eight bytes at a time via
`u64` XOR, falling back to the scalar tail. -/
def cplWord (a b : List Nat) (n i : Nat) : Nat :=
  if h : i + 8 ≤ n then
    let achunk := fromLEBytes (sliceL a i 8)
    let bchunk := fromLEBytes (sliceL b i 8)
    let x := achunk ^^^ bchunk
    if x ≠ 0 then i + ctz x / 8
    else cplWord a b n (i + 8)
  else cplTail a b n i
termination_by n - i

/-- `common_prefix_len(a, b)` from hashindex.rs. -/
def common_prefix_len (a b : List Nat) : Nat :=
  cplWord a b (min a.length b.length) 0

/-- Reference recursion: length of the longest common prefix. -/
def cplSpec : List Nat → List Nat → Nat
  | a :: as_, b :: bs_ => if a = b then cplSpec as_ bs_ + 1 else 0
  | _, _ => 0

end Bidiff

namespace Bidiff

/-! ### Bit-level lemmas for the word loop -/

theorem ctz_two_mul {y : Nat} (hy : y ≠ 0) : ctz (2 * y) = ctz y + 1 := by
  rw [ctz]
  have h0 : ¬ (2 * y = 0) := by omega
  have h1 : ¬ ((2 * y) % 2 = 1) := by omega
  simp [h0, h1, Nat.mul_div_cancel_left y (by omega : 0 < 2)]

theorem two_pow_ctz_dvd (x : Nat) (hx : x ≠ 0) : 2 ^ ctz x ∣ x := by
  induction x using Nat.strong_induction_on with
  | _ x ih =>
    rw [ctz]
    simp only [hx]
    by_cases hodd : x % 2 = 1
    · simp [hodd]
    · have hx2 : x / 2 ≠ 0 := by omega
      have hlt : x / 2 < x := Nat.div_lt_self (Nat.pos_of_ne_zero hx) (by omega)
      have := ih (x / 2) hlt hx2
      simp only [hx, hodd, dite_false, if_false]
      obtain ⟨c, hc⟩ := this
      refine ⟨c, ?_⟩
      have h2 : 2 * (x / 2) = 2 ^ (ctz (x / 2) + 1) * c := by
        conv_lhs => rw [hc]
        rw [pow_succ]
        ring
      calc x = 2 * (x / 2) := by omega
        _ = 2 ^ (ctz (x / 2) + 1) * c := h2

theorem ctz_pow_mul (k : Nat) {y : Nat} (hy : y ≠ 0) : ctz (2 ^ k * y) = k + ctz y := by
  induction k with
  | zero => simp
  | succ n ih =>
    have h1 : 2 ^ (n + 1) * y = 2 * (2 ^ n * y) := by ring
    have h2 : 2 ^ n * y ≠ 0 := by positivity
    rw [h1, ctz_two_mul h2, ih]
    omega

theorem ctz_lt_eight {x : Nat} (hx : x % 256 ≠ 0) : ctz x < 8 := by
  have hx0 : x ≠ 0 := by omega
  by_contra hge
  have hdvd : 2 ^ ctz x ∣ x := two_pow_ctz_dvd x hx0
  have h8 : (256 : Nat) ∣ 2 ^ ctz x := by
    have : (256 : Nat) = 2 ^ 8 := by norm_num
    rw [this]
    exact Nat.pow_dvd_pow 2 (by omega)
  exact hx (Nat.mod_eq_zero_of_dvd (h8.trans hdvd))

end Bidiff

namespace Bidiff

theorem xor_byte_add {a b : Nat} (x y : Nat) (ha : a < 256) (hb : b < 256) :
    (a + 256 * x) ^^^ (b + 256 * y) = (a ^^^ b) + 256 * (x ^^^ y) := by
  have ha' : a < 2 ^ 8 := by norm_num [ha]
  have hb' : b < 2 ^ 8 := by norm_num [hb]
  have hab : a ^^^ b < 2 ^ 8 := Nat.xor_lt_two_pow ha' hb'
  apply Nat.eq_of_testBit_eq
  intro i
  have h1 : a + 256 * x = 2 ^ 8 * x + a := by ring
  have h2 : b + 256 * y = 2 ^ 8 * y + b := by ring
  have h3 : (a ^^^ b) + 256 * (x ^^^ y) = 2 ^ 8 * (x ^^^ y) + (a ^^^ b) := by ring
  rw [h1, h2, h3, Nat.testBit_xor,
      Nat.testBit_mul_pow_two_add _ ha', Nat.testBit_mul_pow_two_add _ hb',
      Nat.testBit_mul_pow_two_add _ hab]
  by_cases hi : i < 8 <;> simp [hi, Nat.testBit_xor]

theorem fromLEBytes_cons (b : Nat) (l : List Nat) :
    fromLEBytes (b :: l) = b + 256 * fromLEBytes l := rfl

theorem fromLEBytes_xor :
    ∀ (a b : List Nat), IsBytes a → IsBytes b → a.length = b.length →
      fromLEBytes a ^^^ fromLEBytes b = fromLEBytes (List.zipWith (· ^^^ ·) a b)
  | [], [], _, _, _ => by simp [fromLEBytes]
  | a :: as_, b :: bs_, ha, hb, hlen => by
    have ha0 : a < 256 := ha a (by simp)
    have hb0 : b < 256 := hb b (by simp)
    have ihs := fromLEBytes_xor as_ bs_ (fun x hx => ha x (by simp [hx]))
      (fun x hx => hb x (by simp [hx])) (by simpa using hlen)
    simp only [List.zipWith_cons_cons, fromLEBytes_cons, xor_byte_add _ _ ha0 hb0, ihs]

theorem fromLEBytes_eq_zero :
    ∀ (l : List Nat), (fromLEBytes l = 0 ↔ ∀ x ∈ l, x = 0)
  | [] => by simp [fromLEBytes]
  | b :: l => by
    rw [fromLEBytes_cons]
    constructor
    · intro h x hx
      have hb : b = 0 := by omega
      have hl : fromLEBytes l = 0 := by omega
      rcases hx with _ | hx
      · exact hb
      · exact (fromLEBytes_eq_zero l).1 hl x (by assumption)
    · intro h
      have hb : b = 0 := h b (by simp)
      have hl : fromLEBytes l = 0 := (fromLEBytes_eq_zero l).2 fun x hx => h x (by simp [hx])
      omega

/-- Locating the least nonzero byte of a little-endian word with
count-trailing-zeros. -/
theorem fromLE_ctz (l : List Nat) (hB : IsBytes l) (hne : fromLEBytes l ≠ 0) :
    ∃ J, J < l.length ∧ (∀ j < J, l.getD j 0 = 0) ∧ l.getD J 0 ≠ 0 ∧
      ctz (fromLEBytes l) / 8 = J := by
  induction l with
  | nil => simp [fromLEBytes] at hne
  | cons b rest ih =>
    rw [fromLEBytes_cons] at hne ⊢
    by_cases hb : b = 0
    · subst hb
      have hr : fromLEBytes rest ≠ 0 := by omega
      obtain ⟨J, hJlen, hJpre, hJne, hJctz⟩ := ih (fun x hx => hB x (by simp [hx])) hr
      refine ⟨J + 1, by simp; omega, ?_, by simpa using hJne, ?_⟩
      · intro j hj
        cases j with
        | zero => simp
        | succ j' => simpa using hJpre j' (by omega)
      · have h256 : (0 : Nat) + 256 * fromLEBytes rest = 2 ^ 8 * fromLEBytes rest := by ring
        rw [h256, ctz_pow_mul 8 hr]
        omega
    · refine ⟨0, by simp, by omega, by simpa using hb, ?_⟩
      have hmod : (b + 256 * fromLEBytes rest) % 256 = b := by
        rw [Nat.add_mul_mod_self_left]
        exact Nat.mod_eq_of_lt (hB b (by simp))
      have := ctz_lt_eight (x := b + 256 * fromLEBytes rest) (by rw [hmod]; exact hb)
      omega

end Bidiff

namespace Bidiff

theorem sliceL_getD (l : List Nat) {s n k : Nat} (hk : k < n) (h : s + n ≤ l.length) :
    (sliceL l s n).getD k 0 = l.getD (s + k) 0 := by
  have hlen : (sliceL l s n).length = n := by
    rw [sliceL_length]; omega
  rw [List.getD_eq_getElem _ 0 (by omega), List.getD_eq_getElem _ 0 (by omega)]
  simp [sliceL]

theorem sliceL_length_of_le (l : List Nat) {s n : Nat} (h : s + n ≤ l.length) :
    (sliceL l s n).length = n := by
  rw [sliceL_length]; omega

theorem xor_lt_256 {x y : Nat} (hx : x < 256) (hy : y < 256) : x ^^^ y < 256 := by
  have h := Nat.xor_lt_two_pow (x := x) (y := y) (n := 8) (by norm_num [hx]) (by norm_num [hy])
  norm_num at h
  exact h

theorem getD_zipWith_xor (a b : List Nat) (j : Nat) (hja : j < a.length)
    (hjb : j < b.length) :
    (List.zipWith (· ^^^ ·) a b).getD j 0 = a.getD j 0 ^^^ b.getD j 0 := by
  rw [List.getD_eq_getElem _ 0 (by rw [List.length_zipWith]; omega),
      List.getD_eq_getElem _ 0 hja, List.getD_eq_getElem _ 0 hjb]
  simp [List.getElem_zipWith]

/-- Full behavioural characterisation of the scalar tail loop. -/
theorem cplTail_spec (a b : List Nat) (n : Nat) :
    ∀ k i, n - i ≤ k → i ≤ n →
      i ≤ cplTail a b n i ∧ cplTail a b n i ≤ n ∧
      (∀ j, i ≤ j → j < cplTail a b n i → a.getD j 0 = b.getD j 0) ∧
      (cplTail a b n i < n → a.getD (cplTail a b n i) 0 ≠ b.getD (cplTail a b n i) 0) := by
  intro k
  induction k with
  | zero =>
    intro i hk hi
    have hin : i = n := by omega
    rw [cplTail, dif_neg (by omega : ¬ i < n)]
    exact ⟨hi, le_refl n, fun j h1 h2 => by omega, fun h => absurd h (by omega)⟩
  | succ k ih =>
    intro i hk hi
    rw [cplTail]
    by_cases hlt : i < n
    · rw [dif_pos hlt]
      by_cases hne : a.getD i 0 ≠ b.getD i 0
      · rw [if_pos hne]
        exact ⟨le_refl i, by omega, fun j h1 h2 => by omega, fun _ => hne⟩
      · rw [if_neg hne]
        obtain ⟨h1, h2, h3, h4⟩ := ih (i + 1) (by omega) (by omega)
        refine ⟨by omega, h2, ?_, h4⟩
        intro j hj1 hj2
        rcases Nat.eq_or_lt_of_le hj1 with h | h
        · subst h; exact (not_not.1 hne)
        · exact h3 j (by omega) hj2
    · rw [dif_neg hlt]
      exact ⟨by omega, le_refl n, fun j h1 h2 => by omega, fun h => absurd h (by omega)⟩

/-- Full behavioural characterisation of the word loop (hence of
`common_prefix_len`). -/
theorem cplWord_spec (a b : List Nat) (hA : IsBytes a) (hB : IsBytes b) (n : Nat)
    (hn : n ≤ a.length ∧ n ≤ b.length) :
    ∀ k i, n - i ≤ k → i ≤ n →
      i ≤ cplWord a b n i ∧ cplWord a b n i ≤ n ∧
      (∀ j, i ≤ j → j < cplWord a b n i → a.getD j 0 = b.getD j 0) ∧
      (cplWord a b n i < n → a.getD (cplWord a b n i) 0 ≠ b.getD (cplWord a b n i) 0) := by
  intro k
  induction k with
  | zero =>
    intro i hk hi
    have hin : i = n := by omega
    rw [cplWord]
    have h8 : ¬ (i + 8 ≤ n) := by omega
    rw [dif_neg h8]
    exact cplTail_spec a b n (n - i) i (le_refl _) hi
  | succ k ih =>
    intro i hk hi
    rw [cplWord]
    by_cases h8 : i + 8 ≤ n
    · rw [dif_pos h8]
      simp only []
      set ac := fromLEBytes (sliceL a i 8) with hac
      set bc := fromLEBytes (sliceL b i 8) with hbc
      have hsa : i + 8 ≤ a.length := by omega
      have hsb : i + 8 ≤ b.length := by omega
      have hlenA : (sliceL a i 8).length = 8 := sliceL_length_of_le a hsa
      have hlenB : (sliceL b i 8).length = 8 := sliceL_length_of_le b hsb
      have hBA : IsBytes (sliceL a i 8) := hA.sliceL i 8
      have hBB : IsBytes (sliceL b i 8) := hB.sliceL i 8
      have hxorz : ac ^^^ bc = fromLEBytes (List.zipWith (· ^^^ ·) (sliceL a i 8) (sliceL b i 8)) :=
        fromLEBytes_xor _ _ hBA hBB (by omega)
      set z := List.zipWith (· ^^^ ·) (sliceL a i 8) (sliceL b i 8) with hz
      have hzlen : z.length = 8 := by
        rw [hz, List.length_zipWith]; omega
      have hzgetD : ∀ j < 8, z.getD j 0 = (a.getD (i + j) 0) ^^^ (b.getD (i + j) 0) := by
        intro j hj
        rw [hz, getD_zipWith_xor _ _ j (by omega) (by omega),
            sliceL_getD a hj hsa, sliceL_getD b hj hsb]
      have hBz : IsBytes z := by
        intro x hx'
        obtain ⟨j, hj, hje⟩ := List.mem_iff_getElem.1 hx'
        have hj8 : j < 8 := by omega
        have := hzgetD j hj8
        rw [List.getD_eq_getElem _ 0 (by omega)] at this
        rw [← hje, this]
        exact xor_lt_256 (hA.getD (by omega)) (hB.getD (by omega))
      by_cases hx : ac ^^^ bc ≠ 0
      · rw [if_pos hx]
        have hne' : fromLEBytes z ≠ 0 := by rw [← hxorz]; exact hx
        obtain ⟨J, hJlen, hJpre, hJne, hJctz⟩ := fromLE_ctz z hBz hne'
        have hJ8 : J < 8 := by omega
        rw [hxorz, hJctz]
        refine ⟨by omega, by omega, ?_, ?_⟩
        · intro j hj1 hj2
          have hj' : j - i < J := by omega
          have := hJpre (j - i) hj'
          rw [hzgetD (j - i) (by omega)] at this
          have heq : a.getD (i + (j - i)) 0 = b.getD (i + (j - i)) 0 := Nat.xor_eq_zero.1 this
          have hij : i + (j - i) = j := by omega
          rwa [hij] at heq
        · intro _
          have := hJne
          rw [hzgetD J hJ8] at this
          intro heq
          exact this (by rw [heq]; simp)
      · rw [if_neg hx]
        have hxe : fromLEBytes z = 0 := by rw [← hxorz]; exact not_not.1 hx
        have hall : ∀ j < 8, a.getD (i + j) 0 = b.getD (i + j) 0 := by
          intro j hj
          have hz0 : z.getD j 0 = 0 := by
            rw [List.getD_eq_getElem _ 0 (by omega)]
            exact (fromLEBytes_eq_zero z).1 hxe _ (z.getElem_mem (by omega))
          rw [hzgetD j hj] at hz0
          exact Nat.xor_eq_zero.1 hz0
        obtain ⟨h1, h2, h3, h4⟩ := ih (i + 8) (by omega) (by omega)
        refine ⟨by omega, h2, ?_, h4⟩
        intro j hj1 hj2
        by_cases hcase : j < i + 8
        · have := hall (j - i) (by omega)
          have hij : i + (j - i) = j := by omega
          rwa [hij] at this
        · exact h3 j (by omega) hj2
    · rw [dif_neg h8]
      exact cplTail_spec a b n (n - i) i (le_refl _) hi

end Bidiff

namespace Bidiff

theorem common_prefix_len_spec (a b : List Nat) (hA : IsBytes a) (hB : IsBytes b) :
    common_prefix_len a b ≤ min a.length b.length ∧
    (∀ j < common_prefix_len a b, a.getD j 0 = b.getD j 0) ∧
    (common_prefix_len a b < min a.length b.length →
      a.getD (common_prefix_len a b) 0 ≠ b.getD (common_prefix_len a b) 0) := by
  obtain ⟨h1, h2, h3, h4⟩ := cplWord_spec a b hA hB (min a.length b.length)
    ⟨by omega, by omega⟩ (min a.length b.length) 0 (by omega) (by omega)
  exact ⟨h2, fun j hj => h3 j (by omega) hj, h4⟩

theorem common_prefix_len_le (a b : List Nat) (hA : IsBytes a) (hB : IsBytes b) :
    common_prefix_len a b ≤ min a.length b.length :=
  (common_prefix_len_spec a b hA hB).1

/-! ### Hash index (hashindex.rs)

The table is modelled as a total function from slot index to the stored
64-bit value; `MmapTable::new` zero-initialises, so the initial table is
`fun _ => EMPTY`.  Prefetches are pure hints and are omitted. -/

/-- `EMPTY = 0` (hashindex.rs line 185). -/
def EMPTY : Nat := 0

/-- `BUCKET_SIZE = 8` (hashindex.rs line 189). -/
def BUCKET_SIZE : Nat := 8

/-- `pack_entry(offset, hash)` (hashindex.rs lines 193-196); `offset` is a
`u32`, so callers guarantee `offset < 2 ^ 32`. -/
def pack_entry (offset : Nat) (hash : Nat) : Nat :=
  (hash &&& 0xFFFFFFFF00000000) ||| (offset + 1)

/-- `entry_offset(entry)` (hashindex.rs lines 199-202): `(entry as u32) - 1`
with release-mode wrap-around of the `u32` subtraction. -/
def entry_offset (entry : Nat) : Nat :=
  ((entry % 2 ^ 32) + 2 ^ 32 - 1) % 2 ^ 32

/-- `entry_tag(entry)` (hashindex.rs lines 205-208): `(entry >> 32) as u32`. -/
def entry_tag (entry : Nat) : Nat :=
  (entry >>> 32) % 2 ^ 32

/-- `wymix(a, b)` (hashindex.rs lines 211-214): 64×64→128 multiply, then
fold the two halves with XOR. -/
def wymix (a b : Nat) : Nat :=
  ((a * b) % 2 ^ 64) ^^^ ((a * b) / 2 ^ 64 % 2 ^ 64)

/-- `hash_block(data)` (hashindex.rs lines 220-243): wyhash-style mix of
four little-endian words for blocks of at least 32 bytes, FNV-1a otherwise. -/
def hash_block (data : List Nat) : Nat :=
  if data.length < 32 then
    data.foldl (fun h b => ((h ^^^ b) * 0x100000001b3) % 2 ^ 64) 0xcbf29ce484222325
  else
    let a := fromLEBytes (sliceL data 0 8)
    let b := fromLEBytes (sliceL data 8 8)
    let c := fromLEBytes (sliceL data 16 8)
    let d := fromLEBytes (sliceL data 24 8)
    wymix (a ^^^ 0xa0761d6478bd642f) (b ^^^ 0xe7037ed1a0b428db) ^^^
      wymix (c ^^^ 0x8ebc6af09c88c6e3) (d ^^^ 0x1d8e4e27c47d124f)

/-- The state of `HashIndex` (hashindex.rs lines 173-181). -/
structure HashIndexM where
  text : List Nat
  blockSize : Nat
  table : Nat → Nat
  mask : Nat

/-- Outcome of scanning one bucket during lookup. -/
inductive BucketOutcome where
  | hit (o : Nat)
  | emptyFound
  | full

/-- The 8-slot scan of one bucket in `lookup_with_hash` (hashindex.rs lines
442-453): `left` counts the remaining slots, starting at `BUCKET_SIZE`. -/
def bucketScanAux (text : List Nat) (bs : Nat) (tbl : Nat → Nat) (block : List Nat)
    (tag : Nat) : Nat → Nat → BucketOutcome
  | _, 0 => .full
  | slot, left + 1 =>
    let e := tbl slot
    if e = EMPTY then .emptyFound
    else if entry_tag e = tag ∧ sliceL text (entry_offset e) bs = block then
      .hit (entry_offset e)
    else bucketScanAux text bs tbl block tag (slot + 1) left

/-- The probe loop of `lookup_with_hash` (hashindex.rs lines 440-461):
scan the current bucket; stop on a hit or on an EMPTY slot; otherwise
increment `probes` and give up once `probes > 4`. -/
def lookupLoop (idx : HashIndexM) (block : List Nat) (tag : Nat)
    (bucket probes : Nat) : Option Nat :=
  match bucketScanAux idx.text idx.blockSize idx.table block tag
      (bucket * BUCKET_SIZE) BUCKET_SIZE with
  | .hit o => some o
  | .emptyFound => none
  | .full =>
    if h : probes + 1 > 4 then none
    else lookupLoop idx block tag ((bucket + 1) &&& idx.mask) (probes + 1)
termination_by 5 - probes
decreasing_by omega

/-- Number of buckets scanned by the same probe loop (same recursion as
`lookupLoop`, counting one per bucket). -/
def lookupLoopBuckets (idx : HashIndexM) (block : List Nat) (tag : Nat)
    (bucket probes : Nat) : Nat :=
  match bucketScanAux idx.text idx.blockSize idx.table block tag
      (bucket * BUCKET_SIZE) BUCKET_SIZE with
  | .hit _ => 1
  | .emptyFound => 1
  | .full =>
    if h : probes + 1 > 4 then 1
    else 1 + lookupLoopBuckets idx block tag ((bucket + 1) &&& idx.mask) (probes + 1)
termination_by 5 - probes
decreasing_by omega

/-- `HashIndex::lookup_with_hash` (hashindex.rs lines 436-462). -/
def lookup_with_hash (idx : HashIndexM) (block : List Nat) (h : Nat) : Option Nat :=
  lookupLoop idx block ((h >>> 32) % 2 ^ 32) (h &&& idx.mask) 0

/-- `HashIndex::lookup` (hashindex.rs lines 424-427). -/
def lookup (idx : HashIndexM) (block : List Nat) : Option Nat :=
  lookup_with_hash idx block (hash_block block)

/-- `HashIndex::longest_substring_match` (hashindex.rs lines 485-517),
returning the `(start, len)` fields of `LongestCommonSubstring`. -/
def longest_substring_match (idx : HashIndexM) (needle : List Nat) : Nat × Nat :=
  if needle.length < idx.blockSize ∨ idx.text.length < idx.blockSize then (0, 0)
  else
    let block := needle.take idx.blockSize
    match lookup idx block with
    | some text_offset =>
      (text_offset,
        idx.blockSize +
          common_prefix_len (idx.text.drop (text_offset + idx.blockSize))
            (needle.drop idx.blockSize))
    | none => (0, 0)

/-- `HashIndex::longest_substring_match_with_hash` (hashindex.rs lines 520-553). -/
def longest_substring_match_with_hash (idx : HashIndexM) (needle : List Nat)
    (h : Nat) : Nat × Nat :=
  if needle.length < idx.blockSize ∨ idx.text.length < idx.blockSize then (0, 0)
  else
    let block := needle.take idx.blockSize
    match lookup_with_hash idx block h with
    | some text_offset =>
      (text_offset,
        idx.blockSize +
          common_prefix_len (idx.text.drop (text_offset + idx.blockSize))
            (needle.drop idx.blockSize))
    | none => (0, 0)

/-- `HashIndex::prefetch_block` (hashindex.rs lines 469-478): the prefetch
itself is a hint; only the returned hash is modelled. -/
def prefetch_block (idx : HashIndexM) (data : List Nat) : Option Nat :=
  if data.length ≥ idx.blockSize then some (hash_block (data.take idx.blockSize))
  else none

end Bidiff

namespace Bidiff

/-! ### Population (hashindex.rs lines 304-418, serial path)

The software pipeline of the serial path only reorders prefetches; the
inserts themselves happen for block indices `num_entries - 1` down to `0`,
which is modelled directly.  The probe loop of the source is unbounded; a
vacant slot always exists at the ≤ 50 % load factor, so `mask + 2` bucket
probes are always enough — the model carries that as explicit fuel and
leaves the table unchanged if it were ever exhausted. -/

/-- The 8-slot scan of one bucket during serial insertion (hashindex.rs
lines 388-401): returns the slot to write, if any. -/
def insertScanAux (text : List Nat) (bs : Nat) (tbl : Nat → Nat) (block : List Nat)
    (tag : Nat) : Nat → Nat → Option Nat
  | _, 0 => none
  | slot, left + 1 =>
    let e := tbl slot
    if e = EMPTY then some slot
    else if entry_tag e = tag ∧ sliceL text (entry_offset e) bs = block then some slot
    else insertScanAux text bs tbl block tag (slot + 1) left

/-- The bucket probe loop of serial insertion (hashindex.rs lines 386-405). -/
def insertProbe (text : List Nat) (bs mask : Nat) (tbl : Nat → Nat) (packed : Nat)
    (block : List Nat) (tag : Nat) : Nat → Nat → (Nat → Nat)
  | _, 0 => tbl
  | bucket, fuel + 1 =>
    match insertScanAux text bs tbl block tag (bucket * BUCKET_SIZE) BUCKET_SIZE with
    | some slot => fun j => if j = slot then packed else tbl j
    | none =>
      insertProbe text bs mask tbl packed block tag ((bucket + 1) &&& mask) fuel

/-- Insert the block at `offset` (one iteration of the population loop). -/
def insertOne (text : List Nat) (bs mask : Nat) (tbl : Nat → Nat) (offset : Nat) :
    Nat → Nat :=
  let h := hash_block (sliceL text offset bs)
  insertProbe text bs mask tbl (pack_entry offset h) (sliceL text offset bs)
    ((h >>> 32) % 2 ^ 32) (h &&& mask) (mask + 2)

/-- Insert blocks `i - 1, i - 2, …, 0` (descending, as the pipelined source
does). -/
def populateFrom (text : List Nat) (bs mask : Nat) : (Nat → Nat) → Nat → (Nat → Nat)
  | tbl, 0 => tbl
  | tbl, i + 1 => populateFrom text bs mask (insertOne text bs mask tbl (i * bs)) i

/-- `usize::next_power_of_two` (smallest power of two that is ≥ the input;
`0` and `1` both map to `1`). -/
def nextPow2 (n : Nat) : Nat := 2 ^ Nat.clog 2 n

/-- `HashIndex::new` (hashindex.rs lines 250-254 together with `new_empty`
lines 259-297 and `populate`): `div_ceil` is written out as
`(x + BUCKET_SIZE - 1) / BUCKET_SIZE`. -/
def hashIndexNew (text : List Nat) (bs : Nat) : HashIndexM :=
  if text.length < bs ∨ text.length / bs = 0 then
    ⟨text, bs, fun _ => EMPTY, 0⟩
  else
    let numEntries := text.length / bs
    let numBuckets := max (nextPow2 ((numEntries * 2 + BUCKET_SIZE - 1) / BUCKET_SIZE)) 1
    let mask := numBuckets - 1
    ⟨text, bs, populateFrom text bs mask (fun _ => EMPTY) numEntries, mask⟩

theorem hashIndexNew_text (text : List Nat) (bs : Nat) :
    (hashIndexNew text bs).text = text := by
  unfold hashIndexNew
  split <;> rfl

theorem hashIndexNew_blockSize (text : List Nat) (bs : Nat) :
    (hashIndexNew text bs).blockSize = bs := by
  unfold hashIndexNew
  split <;> rfl

/-! ### Lookup bounds -/

theorem bucketScanAux_hit {text : List Nat} {bs : Nat} {tbl : Nat → Nat}
    {block : List Nat} {tag : Nat} :
    ∀ {left slot o : Nat},
      bucketScanAux text bs tbl block tag slot left = .hit o →
      sliceL text o bs = block := by
  intro left
  induction left with
  | zero => intro slot o h; simp [bucketScanAux] at h
  | succ left ih =>
    intro slot o h
    rw [bucketScanAux] at h
    split at h
    · exact BucketOutcome.noConfusion h
    · split at h
      · rename_i hm
        rw [← BucketOutcome.hit.inj h]
        exact hm.2
      · exact ih h

theorem lookupLoop_some {idx : HashIndexM} {block : List Nat} {tag : Nat} :
    ∀ {k probes bucket o : Nat}, 5 - probes ≤ k →
      lookupLoop idx block tag bucket probes = some o →
      sliceL idx.text o idx.blockSize = block := by
  intro k
  induction k with
  | zero =>
    intro probes bucket o hk h
    rw [lookupLoop] at h
    rcases hout : bucketScanAux idx.text idx.blockSize idx.table block tag
        (bucket * BUCKET_SIZE) BUCKET_SIZE with o' | _ | _ <;> rw [hout] at h
    · rw [← Option.some.inj h]
      exact bucketScanAux_hit hout
    · exact Option.noConfusion h
    · rw [dif_pos (by omega)] at h
      exact Option.noConfusion h
  | succ k ih =>
    intro probes bucket o hk h
    rw [lookupLoop] at h
    rcases hout : bucketScanAux idx.text idx.blockSize idx.table block tag
        (bucket * BUCKET_SIZE) BUCKET_SIZE with o' | _ | _ <;> rw [hout] at h
    · rw [← Option.some.inj h]
      exact bucketScanAux_hit hout
    · exact Option.noConfusion h
    · by_cases hp : probes + 1 > 4
      · rw [dif_pos hp] at h
        exact Option.noConfusion h
      · rw [dif_neg hp] at h
        exact ih (by omega) h

theorem lookup_with_hash_some {idx : HashIndexM} {block : List Nat} {h o : Nat}
    (hl : lookup_with_hash idx block h = some o) :
    sliceL idx.text o idx.blockSize = block :=
  lookupLoop_some (k := 5) (by omega) hl

theorem lookup_some {idx : HashIndexM} {block : List Nat} {o : Nat}
    (hl : lookup idx block = some o) :
    sliceL idx.text o idx.blockSize = block :=
  lookup_with_hash_some hl

theorem longest_substring_match_with_hash_bounds (idx : HashIndexM)
    (needle : List Nat) (h : Nat) (ht : IsBytes idx.text) (hn : IsBytes needle)
    (hbs : 1 ≤ idx.blockSize) :
    (longest_substring_match_with_hash idx needle h).2 ≤ needle.length ∧
    (longest_substring_match_with_hash idx needle h).1 +
        (longest_substring_match_with_hash idx needle h).2 ≤ idx.text.length := by
  unfold longest_substring_match_with_hash
  by_cases hshort : needle.length < idx.blockSize ∨ idx.text.length < idx.blockSize
  · rw [if_pos hshort]
    simp
  · rw [if_neg hshort]
    push_neg at hshort
    simp only []
    rcases hl : lookup_with_hash idx (needle.take idx.blockSize) h with _ | o
    · simp
    · simp only []
      have hcontent := lookup_with_hash_some hl
      have hblen : (needle.take idx.blockSize).length = idx.blockSize := by
        rw [List.length_take]; omega
    -- length of the stored block equals the needle block, so o + bs ≤ |text|
      have hslen : (sliceL idx.text o idx.blockSize).length = idx.blockSize := by
        rw [hcontent, hblen]
      rw [sliceL_length] at hslen
      have hobs : o + idx.blockSize ≤ idx.text.length := by omega
      have hcpl := common_prefix_len_le (idx.text.drop (o + idx.blockSize))
        (needle.drop idx.blockSize) (ht.drop _) (hn.drop _)
      rw [List.length_drop, List.length_drop] at hcpl
      exact ⟨by omega, by omega⟩

theorem longest_substring_match_bounds (idx : HashIndexM) (needle : List Nat)
    (ht : IsBytes idx.text) (hn : IsBytes needle) (hbs : 1 ≤ idx.blockSize) :
    (longest_substring_match idx needle).2 ≤ needle.length ∧
    (longest_substring_match idx needle).1 +
        (longest_substring_match idx needle).2 ≤ idx.text.length := by
  have : longest_substring_match idx needle =
      longest_substring_match_with_hash idx needle
        (hash_block (needle.take idx.blockSize)) := by
    unfold longest_substring_match longest_substring_match_with_hash lookup
    rfl
  rw [this]
  exact longest_substring_match_with_hash_bounds idx needle _ ht hn hbs

end Bidiff

namespace Bidiff

/-! ### The differ (lib.rs)

`BsdiffIterator::next` (lib.rs lines 171-348) is embedded as `step`
(the body of one `next` call, entered just after the outer loop has
executed `scan += length`) and `next` (the outer-loop entry check).
`as usize` casts of possibly negative `isize` values wrap modulo `2 ^ 64`,
modelled by `usizeOfInt`. -/

/-- `Match` (lib.rs lines 30-36). -/
structure Match where
  add_old_start : Nat
  add_new_start : Nat
  add_length : Nat
  copy_end : Nat
deriving Repr, DecidableEq

/-- `Match::copy_start` (lib.rs lines 39-43). -/
def Match.copy_start (m : Match) : Nat := m.add_new_start + m.add_length

/-- `count_matching_bytes` (lib.rs lines 17-20). -/
def count_matching_bytes (a b : List Nat) : Nat :=
  ((a.zip b).filter (fun p => p.1 == p.2)).length

/-- Two's-complement `as usize` cast of an `isize`/`i64` value. -/
def usizeOfInt (x : Int) : Nat := (x % (2 ^ 64 : Int)).toNat

/-- The mutable cursor state of `BsdiffIterator` (lib.rs lines 137-150). -/
structure ScanState where
  scan : Nat
  pos : Nat
  length : Nat
  lastscan : Nat
  lastpos : Nat
  lastoffset : Int
  cachedHash : Option Nat

/-- The `oldscore` update block (lib.rs lines 197-221): count matching
bytes of `nbuf[scsc..end]` against the `lastoffset`-shifted old range,
fast path when the whole shifted range is in bounds, otherwise the
bounds-checked scalar loop. -/
def oldscoreAdd (obuf nbuf : List Nat) (lastoffset : Int) (scsc endd : Nat)
    (oldscore : Int) : Int :=
  if scsc < endd then
    let oStart : Int := (scsc : Int) + lastoffset
    let oEnd : Int := (endd : Int) + lastoffset
    if 0 ≤ oStart ∧ usizeOfInt oEnd ≤ obuf.length then
      oldscore +
        (count_matching_bytes (sliceL obuf (usizeOfInt oStart) (endd - scsc))
          (sliceL nbuf scsc (endd - scsc)) : Int)
    else
      (List.range' scsc (endd - scsc)).foldl
        (fun (acc : Int) (i : Nat) =>
          let oi := usizeOfInt ((i : Int) + lastoffset)
          if oi < obuf.length ∧ obuf.getD oi 0 = nbuf.getD i 0 then acc + 1 else acc)
        oldscore
  else oldscore

/-- The `oldscore` decrement block (lib.rs lines 230-235). -/
def scoreDec (obuf nbuf : List Nat) (lastoffset : Int) (scan : Nat)
    (oldscore : Int) : Int :=
  let oi := usizeOfInt ((scan : Int) + lastoffset)
  if oi < obuf.length ∧ obuf.getD oi 0 = nbuf.getD scan 0 then oldscore - 1
  else oldscore

/-- Forward extension `lenf` from `lastscan` (lib.rs lines 242-265). -/
def lenfCalc (obuf nbuf : List Nat) (lastscan lastpos scan : Nat) : Nat :=
  let n := min (scan - lastscan) (obuf.length - lastpos)
  let oSlice := sliceL obuf lastpos n
  let nSlice := sliceL nbuf lastscan n
  ((List.range n).foldl
    (fun (st : Int × Int × Nat) i =>
      let s := if oSlice.getD i 0 = nSlice.getD i 0 then st.1 + 1 else st.1
      if s * 2 - ((i + 1 : Nat) : Int) > st.2.1 * 2 - (st.2.2 : Int) then (s, s, i + 1)
      else (s, st.2.1, st.2.2))
    (0, 0, 0)).2.2

/-- Backward extension `lenb` from `scan` (lib.rs lines 267-290). -/
def lenbCalc (obuf nbuf : List Nat) (lastscan scan pos : Nat) : Nat :=
  if nbuf.length ≤ scan then 0
  else
    let n := min (scan - lastscan) pos
    let oSlice := sliceL obuf (pos - n) n
    let nSlice := sliceL nbuf (scan - n) n
    ((List.range' 1 n).foldl
      (fun (st : Int × Int × Nat) i =>
        let s := if oSlice.getD (n - i) 0 = nSlice.getD (n - i) 0 then st.1 + 1 else st.1
        if s * 2 - (i : Int) > st.2.1 * 2 - (st.2.2 : Int) then (s, s, i)
        else (s, st.2.1, st.2.2))
      (0, 0, 0)).2.2

/-- Overlap scoring `lens` (lib.rs lines 299-324). -/
def lensCalc (obuf nbuf : List Nat) (lastscan lastpos scan pos lenf lenb overlap : Nat) :
    Nat :=
  let lastN := sliceL nbuf (lastscan + lenf - overlap) overlap
  let lastO := sliceL obuf (lastpos + lenf - overlap) overlap
  let curN := sliceL nbuf (scan - lenb) overlap
  let curO := sliceL obuf (pos - lenb) overlap
  ((List.range overlap).foldl
    (fun (st : Int × Int × Nat) i =>
      let s1 := if lastN.getD i 0 = lastO.getD i 0 then st.1 + 1 else st.1
      let s := if curN.getD i 0 = curO.getD i 0 then s1 - 1 else s1
      if s > st.2.1 then (s, s, i + 1) else (s, st.2.1, st.2.2))
    (0, 0, 0)).2.2

/-- The emit block (lib.rs lines 240-343): compute `lenf`, `lenb`, resolve
an overlap, and build the `Match`; also returns the final `lenb` used for
the cursor updates. -/
def emitResult (obuf nbuf : List Nat) (lastscan lastpos scan pos : Nat) : Match × Nat :=
  let lenf0 := lenfCalc obuf nbuf lastscan lastpos scan
  let lenb0 := lenbCalc obuf nbuf lastscan scan pos
  if lastscan + lenf0 > scan - lenb0 then
    let overlap := (lastscan + lenf0) - (scan - lenb0)
    let lens := lensCalc obuf nbuf lastscan lastpos scan pos lenf0 lenb0 overlap
    let lenf := lenf0 + lens - overlap
    let lenb := lenb0 - lens
    (⟨lastpos, lastscan, lenf, scan - lenb⟩, lenb)
  else
    (⟨lastpos, lastscan, lenf0, scan - lenb0⟩, lenb0)

/-- The lookup at the top of the inner loop (lib.rs lines 181-186): use the
cached hash from the previous prefetch when present. -/
def lsmStep (idx : HashIndexM) (nbuf : List Nat) (scan : Nat) (ch : Option Nat) :
    Nat × Nat :=
  match ch with
  | some h => longest_substring_match_with_hash idx (nbuf.drop scan) h
  | none => longest_substring_match idx (nbuf.drop scan)

/-- One pass of `BsdiffIterator::next` starting at the top of the inner
loop (lib.rs lines 180-344), entered right after `scan += length`;
`pos`/`length` hold the values persisted in the iterator state. -/
def step (obuf nbuf : List Nat) (idx : HashIndexM) (scan scsc : Nat) (oldscore : Int)
    (pos length : Nat) (ch : Option Nat) (lastscan lastpos : Nat) (lastoffset : Int) :
    Option (Match × ScanState) :=
  if hscan : scan < nbuf.length then
    let ch' := if scan + 1 < nbuf.length then prefetch_block idx (nbuf.drop (scan + 1))
      else none
    let pos' := (lsmStep idx nbuf scan ch).1
    let length' := (lsmStep idx nbuf scan ch).2
    let oldscore' := oldscoreAdd obuf nbuf lastoffset scsc (scan + length') oldscore
    let scsc' := if scsc < scan + length' then scan + length' else scsc
    if hbrk : ((length' : Int) = oldscore' ∧ length' ≠ 0) ∨
        (length' : Int) > oldscore' + 8 then
      if hemit : (length' : Int) ≠ oldscore' then
        let er := emitResult obuf nbuf lastscan lastpos scan pos'
        some (er.1, ⟨scan, pos', length', scan - er.2, pos' - er.2,
          (pos' : Int) - (scan : Int), ch'⟩)
      else
        step obuf nbuf idx (scan + length') (scan + length') 0 pos' length' ch'
          lastscan lastpos lastoffset
    else
      step obuf nbuf idx (scan + 1) scsc'
        (scoreDec obuf nbuf lastoffset scan oldscore') pos' length' ch'
        lastscan lastpos lastoffset
  else
    if (length : Int) ≠ oldscore ∨ scan = nbuf.length then
      let er := emitResult obuf nbuf lastscan lastpos scan pos
      some (er.1, ⟨scan, pos, length, scan - er.2, pos - er.2,
        (pos : Int) - (scan : Int), ch⟩)
    else none
termination_by nbuf.length - scan
decreasing_by
  · simp_wf
    rcases hbrk with ⟨heq, hne⟩ | hgt <;> omega
  · simp_wf
    omega

/-- `BsdiffIterator::next` (outer-loop entry, lib.rs lines 171-179). -/
def next (obuf nbuf : List Nat) (idx : HashIndexM) (st : ScanState) :
    Option (Match × ScanState) :=
  if st.scan < nbuf.length then
    step obuf nbuf idx (st.scan + st.length) (st.scan + st.length) 0 st.pos st.length
      st.cachedHash st.lastscan st.lastpos st.lastoffset
  else none

/-- `BsdiffIterator::new` (lib.rs lines 152-167). -/
def initState : ScanState := ⟨0, 0, 0, 0, 0, 0, none⟩

end Bidiff

namespace Bidiff

theorem oldscoreAdd_ge (obuf nbuf : List Nat) (lastoffset : Int) (scsc endd : Nat)
    (oldscore : Int) : oldscore ≤ oldscoreAdd obuf nbuf lastoffset scsc endd oldscore := by
  unfold oldscoreAdd
  by_cases h1 : scsc < endd
  · rw [if_pos h1]
    by_cases h2 : 0 ≤ (scsc : Int) + lastoffset ∧
        usizeOfInt ((endd : Int) + lastoffset) ≤ obuf.length
    · rw [if_pos h2]
      have : (0 : Int) ≤ (count_matching_bytes
          (sliceL obuf (usizeOfInt ((scsc : Int) + lastoffset)) (endd - scsc))
          (sliceL nbuf scsc (endd - scsc)) : Int) := Int.natCast_nonneg _
      omega
    · rw [if_neg h2]
      refine List.foldlRecOn _ _ _ (le_refl oldscore) ?_
      intro b hb i hi
      simp only []
      split
      · omega
      · exact hb
  · rw [if_neg h1]

theorem step_scan_ge (obuf nbuf : List Nat) (idx : HashIndexM) :
    ∀ fuel scan scsc oldscore pos length ch lastscan lastpos lastoffset m st',
      nbuf.length - scan ≤ fuel →
      step obuf nbuf idx scan scsc oldscore pos length ch lastscan lastpos lastoffset =
        some (m, st') → scan ≤ st'.scan := by
  intro fuel
  induction fuel with
  | zero =>
    intro scan scsc oldscore pos length ch lastscan lastpos lastoffset m st' hf h
    rw [step] at h
    simp only [] at h
    split at h
    · next hscan => omega
    · next hscan =>
      split at h
      · obtain ⟨hm, hst⟩ := Prod.mk.inj (Option.some.inj h)
        rw [← hst]
      · exact Option.noConfusion h
  | succ fuel ih =>
    intro scan scsc oldscore pos length ch lastscan lastpos lastoffset m st' hf h
    rw [step] at h
    simp only [] at h
    split at h
    · next hscan =>
      split at h
      · next hbrk =>
        split at h
        · next hemit =>
          obtain ⟨hm, hst⟩ := Prod.mk.inj (Option.some.inj h)
          rw [← hst]
        · next hemit =>
          have hlen : (lsmStep idx nbuf scan ch).2 ≠ 0 := by
            rcases hbrk with ⟨heq, hne⟩ | hgt
            · exact hne
            · omega
          have := ih (scan + (lsmStep idx nbuf scan ch).2) _ _ _ _ _ _ _ _ _ _
            (by omega) h
          omega
      · next hbrk =>
        have := ih (scan + 1) _ _ _ _ _ _ _ _ _ _ (by omega) h
        omega
    · next hscan =>
      split at h
      · obtain ⟨hm, hst⟩ := Prod.mk.inj (Option.some.inj h)
        rw [← hst]
      · exact Option.noConfusion h

theorem step_some_len9 (obuf nbuf : List Nat) (idx : HashIndexM)
    {scan scsc : Nat} {oldscore : Int} {pos length : Nat} {ch : Option Nat}
    {lastscan lastpos : Nat} {lastoffset : Int} {m : Match} {st' : ScanState}
    (hscan : scan < nbuf.length) (hold : 0 ≤ oldscore)
    (h : step obuf nbuf idx scan scsc oldscore pos length ch lastscan lastpos
      lastoffset = some (m, st'))
    (hst : st'.scan = scan) : 9 ≤ st'.length := by
  rw [step] at h
  simp only [] at h
  split at h
  · next hscan' =>
    split at h
    · next hbrk =>
      split at h
      · next hemit =>
        obtain ⟨hm, hstv⟩ := Prod.mk.inj (Option.some.inj h)
        have hos := oldscoreAdd_ge obuf nbuf lastoffset scsc
          (scan + (lsmStep idx nbuf scan ch).2) oldscore
        rw [← hstv]
        rcases hbrk with ⟨heq, hne⟩ | hgt
        · exact absurd heq hemit
        · simp only []
          omega
      · next hemit =>
        have hge := step_scan_ge obuf nbuf idx (nbuf.length - (scan + (lsmStep idx nbuf scan ch).2))
          _ _ _ _ _ _ _ _ _ _ _ (le_refl _) h
        have hlen : (lsmStep idx nbuf scan ch).2 ≠ 0 := by
          rcases hbrk with ⟨heq, hne⟩ | hgt
          · exact hne
          · omega
        omega
    · next hbrk =>
      have hge := step_scan_ge obuf nbuf idx (nbuf.length - (scan + 1))
        _ _ _ _ _ _ _ _ _ _ _ (le_refl _) h
      omega
  · next hscan' => exact absurd hscan hscan'

/-- The termination measure for the stream of matches. -/
def scanMu (nbuflen : Nat) (st : ScanState) : Nat :=
  2 * (nbuflen - st.scan) + (if st.length = 0 then 1 else 0)

theorem next_mu (obuf nbuf : List Nat) (idx : HashIndexM) (st : ScanState)
    (m : Match) (st' : ScanState)
    (h : next obuf nbuf idx st = some (m, st')) :
    scanMu nbuf.length st' < scanMu nbuf.length st := by
  unfold next at h
  split at h
  · next hscan =>
    have hge := step_scan_ge obuf nbuf idx (nbuf.length - (st.scan + st.length))
      _ _ _ _ _ _ _ _ _ _ _ (le_refl _) h
    simp only [scanMu]
    have hb1 : (if st'.length = 0 then 1 else 0) ≤ 1 := by split <;> omega
    have hb2 : (0 : Nat) ≤ (if st.length = 0 then 1 else 0) := by omega
    by_cases hc : st'.scan = st.scan
    · have hlen0 : st.length = 0 := by omega
      have h9 := step_some_len9 obuf nbuf idx (by omega) (le_refl 0) h (by omega)
      have hb3 : (if st'.length = 0 then 1 else 0) = 0 := by rw [if_neg (by omega)]
      have hb4 : (if st.length = 0 then 1 else 0) = 1 := by rw [if_pos hlen0]
      omega
    · omega
  · exact Option.noConfusion h

/-- The full stream of `Match` records produced by iterating
`BsdiffIterator::next` to exhaustion. -/
def scanAll (obuf nbuf : List Nat) (idx : HashIndexM) (st : ScanState) : List Match :=
  match h : next obuf nbuf idx st with
  | none => []
  | some (m, st') => m :: scanAll obuf nbuf idx st'
termination_by scanMu nbuf.length st
decreasing_by exact next_mu obuf nbuf idx st _ _ h

/-- The matches produced by `diff(obuf, nbuf, params)` (lib.rs lines
416-489, single-threaded path): build the hash index over `obuf` with the
given block size, then run the scan. -/
def diffMatches (obuf nbuf : List Nat) (bs : Nat) : List Match :=
  scanAll obuf nbuf (hashIndexNew obuf bs) initState

end Bidiff

namespace Bidiff

theorem lenfCalc_le (obuf nbuf : List Nat) (lastscan lastpos scan : Nat) :
    lenfCalc obuf nbuf lastscan lastpos scan ≤
      min (scan - lastscan) (obuf.length - lastpos) := by
  unfold lenfCalc
  refine List.foldlRecOn (motive := fun st : Int × Int × Nat =>
    st.2.2 ≤ min (scan - lastscan) (obuf.length - lastpos)) _ _ _ (Nat.zero_le _) ?_
  intro b hb i hi
  rw [List.mem_range] at hi
  split
  all_goals simp only []
  all_goals repeat' split
  all_goals first
    | exact hb
    | exact (show i + 1 ≤ min (scan - lastscan) (obuf.length - lastpos) by omega)

theorem lenbCalc_le (obuf nbuf : List Nat) (lastscan scan pos : Nat) :
    lenbCalc obuf nbuf lastscan scan pos ≤ min (scan - lastscan) pos := by
  unfold lenbCalc
  split
  · omega
  · refine List.foldlRecOn (motive := fun st : Int × Int × Nat =>
      st.2.2 ≤ min (scan - lastscan) pos) _ _ _ (Nat.zero_le _) ?_
    intro b hb i hi
    rw [List.mem_range'_1] at hi
    split
    all_goals simp only []
    all_goals repeat' split
    all_goals first
      | exact hb
      | exact (show i ≤ min (scan - lastscan) pos by omega)

theorem lenbCalc_done (obuf nbuf : List Nat) (lastscan scan pos : Nat)
    (h : nbuf.length ≤ scan) : lenbCalc obuf nbuf lastscan scan pos = 0 := by
  unfold lenbCalc
  rw [if_pos h]

theorem lensCalc_le (obuf nbuf : List Nat)
    (lastscan lastpos scan pos lenf lenb overlap : Nat) :
    lensCalc obuf nbuf lastscan lastpos scan pos lenf lenb overlap ≤ overlap := by
  unfold lensCalc
  refine List.foldlRecOn (motive := fun st : Int × Int × Nat =>
    st.2.2 ≤ overlap) _ _ _ (Nat.zero_le _) ?_
  intro b hb i hi
  rw [List.mem_range] at hi
  simp only []
  repeat' split
  all_goals first
    | exact hb
    | exact (show i + 1 ≤ overlap by omega)

theorem emitResult_spec (obuf nbuf : List Nat) (lastscan lastpos scan pos : Nat)
    (h1 : lastscan ≤ scan) (h2 : scan ≤ nbuf.length) (h3 : lastpos ≤ obuf.length) :
    (emitResult obuf nbuf lastscan lastpos scan pos).1.add_old_start = lastpos ∧
    (emitResult obuf nbuf lastscan lastpos scan pos).1.add_new_start = lastscan ∧
    (emitResult obuf nbuf lastscan lastpos scan pos).1.copy_end =
      scan - (emitResult obuf nbuf lastscan lastpos scan pos).2 ∧
    (emitResult obuf nbuf lastscan lastpos scan pos).2 ≤ pos ∧
    (emitResult obuf nbuf lastscan lastpos scan pos).2 ≤ scan - lastscan ∧
    (emitResult obuf nbuf lastscan lastpos scan pos).1.add_new_start +
        (emitResult obuf nbuf lastscan lastpos scan pos).1.add_length ≤
      (emitResult obuf nbuf lastscan lastpos scan pos).1.copy_end ∧
    (emitResult obuf nbuf lastscan lastpos scan pos).1.copy_end ≤ nbuf.length ∧
    (emitResult obuf nbuf lastscan lastpos scan pos).1.add_old_start +
        (emitResult obuf nbuf lastscan lastpos scan pos).1.add_length ≤ obuf.length ∧
    lastscan ≤ (emitResult obuf nbuf lastscan lastpos scan pos).1.copy_end ∧
    (nbuf.length ≤ scan → (emitResult obuf nbuf lastscan lastpos scan pos).2 = 0) := by
  have hf := lenfCalc_le obuf nbuf lastscan lastpos scan
  have hb := lenbCalc_le obuf nbuf lastscan scan pos
  unfold emitResult
  simp only []
  set F := lenfCalc obuf nbuf lastscan lastpos scan with hF
  set B := lenbCalc obuf nbuf lastscan scan pos with hB
  by_cases hover : lastscan + F > scan - B
  · rw [if_pos hover]
    have hl := lensCalc_le obuf nbuf lastscan lastpos scan pos F B
      (lastscan + F - (scan - B))
    refine ⟨rfl, rfl, rfl, by simp only []; omega, by simp only []; omega,
      by simp only []; omega, by simp only []; omega, by simp only []; omega,
      by simp only []; omega, ?_⟩
    intro hd
    have h0 := lenbCalc_done obuf nbuf lastscan scan pos hd
    rw [← hB] at h0
    simp only []
    omega
  · rw [if_neg hover]
    refine ⟨rfl, rfl, rfl, by simp only []; omega, by simp only []; omega,
      by simp only []; omega, by simp only []; omega, by simp only []; omega,
      by simp only []; omega, ?_⟩
    intro hd
    have h0 := lenbCalc_done obuf nbuf lastscan scan pos hd
    rw [← hB] at h0
    simp only []
    omega

end Bidiff

namespace Bidiff

theorem lsmStep_bounds (idx : HashIndexM) (nbuf : List Nat) (scan : Nat)
    (ch : Option Nat) (ht : IsBytes idx.text) (hn : IsBytes nbuf)
    (hbs : 1 ≤ idx.blockSize) :
    (lsmStep idx nbuf scan ch).2 ≤ nbuf.length - scan ∧
    (lsmStep idx nbuf scan ch).1 + (lsmStep idx nbuf scan ch).2 ≤ idx.text.length := by
  unfold lsmStep
  cases ch with
  | some h =>
    have := longest_substring_match_with_hash_bounds idx (nbuf.drop scan) h ht
      (hn.drop scan) hbs
    rw [List.length_drop] at this
    exact this
  | none =>
    have := longest_substring_match_bounds idx (nbuf.drop scan) ht (hn.drop scan) hbs
    rw [List.length_drop] at this
    exact this

/-- State invariant of the scan (maintained by every emitted `Match`). -/
def Inv (obuf nbuf : List Nat) (st : ScanState) : Prop :=
  st.lastscan ≤ st.scan ∧ st.scan ≤ nbuf.length ∧
  (st.scan < nbuf.length → st.scan + st.length ≤ nbuf.length) ∧
  st.lastpos ≤ obuf.length ∧ st.pos ≤ obuf.length ∧
  (st.scan = nbuf.length → st.lastscan = nbuf.length)

theorem step_inv (obuf nbuf : List Nat) (idx : HashIndexM) (hBo : IsBytes obuf)
    (hBn : IsBytes nbuf) (htext : idx.text = obuf) (hbs : 1 ≤ idx.blockSize) :
    ∀ fuel scan scsc oldscore pos length ch lastscan lastpos lastoffset m st',
      nbuf.length - scan ≤ fuel →
      lastscan ≤ scan → scan ≤ nbuf.length → lastpos ≤ obuf.length →
      pos ≤ obuf.length →
      step obuf nbuf idx scan scsc oldscore pos length ch lastscan lastpos
        lastoffset = some (m, st') →
      m.add_old_start = lastpos ∧ m.add_new_start = lastscan ∧
      m.add_new_start + m.add_length ≤ m.copy_end ∧ m.copy_end ≤ nbuf.length ∧
      m.add_old_start + m.add_length ≤ obuf.length ∧
      st'.lastscan = m.copy_end ∧ Inv obuf nbuf st' := by
  have htB : IsBytes idx.text := by rw [htext]; exact hBo
  intro fuel
  induction fuel with
  | zero =>
    intro scan scsc oldscore pos length ch lastscan lastpos lastoffset m st'
      hf h1 h2 h3 h4 h
    rw [step] at h
    simp only [] at h
    split at h
    · next hscan => omega
    · next hscan =>
      have hsc : scan = nbuf.length := by omega
      split at h
      · obtain ⟨hm, hst⟩ := Prod.mk.inj (Option.some.inj h)
        obtain ⟨e1, e2, e3, e4, e5, e6, e7, e8, e9, e10⟩ :=
          emitResult_spec obuf nbuf lastscan lastpos scan pos h1 h2 h3
        have hz : (emitResult obuf nbuf lastscan lastpos scan pos).2 = 0 :=
          e10 (by omega)
        rw [← hm, ← hst]
        refine ⟨e1, e2, e6, e7, e8, by simp only []; omega, ?_⟩
        refine ⟨by simp only []; omega, by simp only []; omega,
          by simp only []; omega, by simp only []; omega,
          by simp only []; omega, by simp only []; omega⟩
      · exact Option.noConfusion h
  | succ fuel ih =>
    intro scan scsc oldscore pos length ch lastscan lastpos lastoffset m st'
      hf h1 h2 h3 h4 h
    rw [step] at h
    simp only [] at h
    split at h
    · next hscan =>
      have hlsm := lsmStep_bounds idx nbuf scan ch htB hBn hbs
      rw [htext] at hlsm
      split at h
      · next hbrk =>
        split at h
        · next hemit =>
          obtain ⟨hm, hst⟩ := Prod.mk.inj (Option.some.inj h)
          obtain ⟨e1, e2, e3, e4, e5, e6, e7, e8, e9, e10⟩ :=
            emitResult_spec obuf nbuf lastscan lastpos scan
              (lsmStep idx nbuf scan ch).1 h1 h2 h3
          rw [← hm, ← hst]
          refine ⟨e1, e2, e6, e7, e8, by simp only []; omega, ?_⟩
          refine ⟨by simp only []; omega, by simp only []; omega,
            by simp only []; omega, by simp only []; omega,
            by simp only []; omega, by simp only []; omega⟩
        · next hemit =>
          have hlen : (lsmStep idx nbuf scan ch).2 ≠ 0 := by
            rcases hbrk with ⟨heq, hne⟩ | hgt
            · exact hne
            · omega
          exact ih (scan + (lsmStep idx nbuf scan ch).2) _ _ _ _ _ _ _ _ _ _
            (by omega) (by omega) (by omega) h3 (by omega) h
      · next hbrk =>
        exact ih (scan + 1) _ _ _ _ _ _ _ _ _ _
          (by omega) (by omega) (by omega) h3 (by omega) h
    · next hscan =>
      have hsc : scan = nbuf.length := by omega
      split at h
      · obtain ⟨hm, hst⟩ := Prod.mk.inj (Option.some.inj h)
        obtain ⟨e1, e2, e3, e4, e5, e6, e7, e8, e9, e10⟩ :=
          emitResult_spec obuf nbuf lastscan lastpos scan pos h1 h2 h3
        have hz : (emitResult obuf nbuf lastscan lastpos scan pos).2 = 0 :=
          e10 (by omega)
        rw [← hm, ← hst]
        refine ⟨e1, e2, e6, e7, e8, by simp only []; omega, ?_⟩
        refine ⟨by simp only []; omega, by simp only []; omega,
          by simp only []; omega, by simp only []; omega,
          by simp only []; omega, by simp only []; omega⟩
      · exact Option.noConfusion h

end Bidiff

namespace Bidiff

theorem step_isSome (obuf nbuf : List Nat) (idx : HashIndexM) (hBo : IsBytes obuf)
    (hBn : IsBytes nbuf) (htext : idx.text = obuf) (hbs : 1 ≤ idx.blockSize) :
    ∀ fuel scan scsc oldscore pos length ch lastscan lastpos lastoffset,
      nbuf.length - scan ≤ fuel → scan ≤ nbuf.length →
      step obuf nbuf idx scan scsc oldscore pos length ch lastscan lastpos
        lastoffset ≠ none := by
  have htB : IsBytes idx.text := by rw [htext]; exact hBo
  intro fuel
  induction fuel with
  | zero =>
    intro scan scsc oldscore pos length ch lastscan lastpos lastoffset hf h2 h
    rw [step] at h
    simp only [] at h
    split at h
    · next hscan => omega
    · next hscan =>
      split at h
      · exact Option.noConfusion h
      · next hcond => omega
  | succ fuel ih =>
    intro scan scsc oldscore pos length ch lastscan lastpos lastoffset hf h2 h
    rw [step] at h
    simp only [] at h
    split at h
    · next hscan =>
      have hlsm := lsmStep_bounds idx nbuf scan ch htB hBn hbs
      split at h
      · next hbrk =>
        split at h
        · exact Option.noConfusion h
        · next hemit =>
          have hlen : (lsmStep idx nbuf scan ch).2 ≠ 0 := by
            rcases hbrk with ⟨heq, hne⟩ | hgt
            · exact hne
            · omega
          exact ih (scan + (lsmStep idx nbuf scan ch).2) _ _ _ _ _ _ _ _
            (by omega) (by omega) h
      · exact ih (scan + 1) _ _ _ _ _ _ _ _ (by omega) (by omega) h
    · next hscan =>
      split at h
      · exact Option.noConfusion h
      · next hcond => omega

/-- The tiling-and-bounds invariant of a match list starting at new-file
position `s`. -/
def GoodList (obuflen nbuflen : Nat) : Nat → List Match → Prop
  | s, [] => s = nbuflen
  | s, m :: rest =>
      m.add_new_start = s ∧ m.add_new_start + m.add_length ≤ m.copy_end ∧
      m.copy_end ≤ nbuflen ∧ m.add_old_start + m.add_length ≤ obuflen ∧
      GoodList obuflen nbuflen m.copy_end rest

theorem scanAll_none {obuf nbuf : List Nat} {idx : HashIndexM} {st : ScanState}
    (h : next obuf nbuf idx st = none) : scanAll obuf nbuf idx st = [] := by
  rw [scanAll]
  split
  · rfl
  · next m st' heq =>
    rw [h] at heq
    exact Option.noConfusion heq

theorem scanAll_some {obuf nbuf : List Nat} {idx : HashIndexM} {st : ScanState}
    {m : Match} {st' : ScanState} (h : next obuf nbuf idx st = some (m, st')) :
    scanAll obuf nbuf idx st = m :: scanAll obuf nbuf idx st' := by
  rw [scanAll]
  split
  · next heq =>
    rw [h] at heq
    exact Option.noConfusion heq
  · next m2 st2 heq =>
    rw [h] at heq
    obtain ⟨hm, hst⟩ := Prod.mk.inj (Option.some.inj heq)
    rw [hm, hst]

theorem next_some_facts (obuf nbuf : List Nat) (idx : HashIndexM) (hBo : IsBytes obuf)
    (hBn : IsBytes nbuf) (htext : idx.text = obuf) (hbs : 1 ≤ idx.blockSize)
    {st : ScanState} {m : Match} {st' : ScanState} (hInv : Inv obuf nbuf st)
    (h : next obuf nbuf idx st = some (m, st')) :
    m.add_old_start = st.lastpos ∧ m.add_new_start = st.lastscan ∧
    m.add_new_start + m.add_length ≤ m.copy_end ∧ m.copy_end ≤ nbuf.length ∧
    m.add_old_start + m.add_length ≤ obuf.length ∧
    st'.lastscan = m.copy_end ∧ Inv obuf nbuf st' := by
  obtain ⟨i1, i2, i3, i4, i5, i6⟩ := hInv
  unfold next at h
  split at h
  · next hscan =>
    exact step_inv obuf nbuf idx hBo hBn htext hbs
      (nbuf.length - (st.scan + st.length)) _ _ _ _ _ _ _ _ _ _ _
      (le_refl _) (by omega) (by omega) i4 i5 h
  · exact Option.noConfusion h

theorem next_none_facts (obuf nbuf : List Nat) (idx : HashIndexM) (hBo : IsBytes obuf)
    (hBn : IsBytes nbuf) (htext : idx.text = obuf) (hbs : 1 ≤ idx.blockSize)
    {st : ScanState} (hInv : Inv obuf nbuf st)
    (h : next obuf nbuf idx st = none) : st.lastscan = nbuf.length := by
  obtain ⟨i1, i2, i3, i4, i5, i6⟩ := hInv
  unfold next at h
  split at h
  · next hscan =>
    exact absurd h (step_isSome obuf nbuf idx hBo hBn htext hbs
      (nbuf.length - (st.scan + st.length)) _ _ _ _ _ _ _ _ _ (le_refl _) (by omega))
  · next hscan => exact i6 (by omega)

theorem scanAll_good (obuf nbuf : List Nat) (idx : HashIndexM) (hBo : IsBytes obuf)
    (hBn : IsBytes nbuf) (htext : idx.text = obuf) (hbs : 1 ≤ idx.blockSize) :
    ∀ fuel st, scanMu nbuf.length st ≤ fuel → Inv obuf nbuf st →
      GoodList obuf.length nbuf.length st.lastscan (scanAll obuf nbuf idx st) := by
  intro fuel
  induction fuel with
  | zero =>
    intro st hf hInv
    have hge : nbuf.length ≤ st.scan := by
      unfold scanMu at hf
      omega
    have hn : next obuf nbuf idx st = none := by
      unfold next
      rw [if_neg (by omega)]
    rw [scanAll_none hn]
    exact next_none_facts obuf nbuf idx hBo hBn htext hbs hInv hn
  | succ fuel ih =>
    intro st hf hInv
    cases hn : next obuf nbuf idx st with
    | none =>
      rw [scanAll_none hn]
      exact next_none_facts obuf nbuf idx hBo hBn htext hbs hInv hn
    | some p =>
      obtain ⟨m, st'⟩ := p
      rw [scanAll_some hn]
      obtain ⟨e1, e2, e3, e4, e5, e6, hInv'⟩ :=
        next_some_facts obuf nbuf idx hBo hBn htext hbs hInv hn
      have hmu := next_mu obuf nbuf idx st m st' hn
      have := ih st' (by omega) hInv'
      rw [e6] at this
      exact ⟨e2, e3, e4, e5, this⟩

end Bidiff

namespace Bidiff

/-! ### Translator and Control (lib.rs lines 45-135) -/

/-- `Control` (lib.rs lines 45-50): the borrowed `add`/`copy` slices are
modelled by value; `seek` is an `i64`. -/
structure Control where
  add : List Nat
  copy : List Nat
  seek : Int
deriving Repr, DecidableEq

/-- The mutable state of `Translator` (lib.rs lines 52-63); the buffers and
the `on_control` callback are passed to the functions below. -/
structure TransState where
  prev_match : Option Match
  buf : List Nat
  closed : Bool

/-- `Translator::new` (lib.rs lines 70-79). -/
def transInit : TransState := ⟨none, [], false⟩

/-- `u8::wrapping_sub` on byte values. -/
def wsub (a b : Nat) : Nat := (a + 256 - b % 256) % 256

/-- `u8::wrapping_add` on byte values. -/
def wadd (a b : Nat) : Nat := (a + b) % 256

/-- The delta buffer recomputed by `translate` (lib.rs lines 99-106):
byte-wise wrapping difference of the two length-`add_length` slices. -/
def mkDelta (obuf nbuf : List Nat) (m : Match) : List Nat :=
  (List.zip (sliceL nbuf m.add_new_start m.add_length)
    (sliceL obuf m.add_old_start m.add_length)).map (fun p => wsub p.1 p.2)

/-- `Translator::send_control` (lib.rs lines 81-94).  `prev_match.take()`
happens before the callback runs; the emitted control is returned next to
the new state so the output stream can be observed. -/
def send_control {E : Type} (cb : Control → Except E Unit) (nbuf : List Nat)
    (st : TransState) (m : Option Match) : Except E (TransState × List Control) :=
  match st.prev_match with
  | none => .ok (st, [])
  | some pm =>
    let c : Control :=
      { add := st.buf.take pm.add_length,
        copy := sliceL nbuf pm.copy_start (pm.copy_end - pm.copy_start),
        seek :=
          match m with
          | some m =>
            (m.add_old_start : Int) - ((pm.add_old_start : Int) + (pm.add_length : Int))
          | none => 0 }
    match cb c with
    | .ok _ => .ok ({ st with prev_match := none }, [c])
    | .error e => .error e

/-- `Translator::translate` (lib.rs lines 96-110). -/
def translate {E : Type} (cb : Control → Except E Unit) (obuf nbuf : List Nat)
    (st : TransState) (m : Match) : Except E (TransState × List Control) :=
  match send_control cb nbuf st (some m) with
  | .error e => .error e
  | .ok (st1, cs) =>
    .ok ({ prev_match := some m, buf := mkDelta obuf nbuf m, closed := st1.closed }, cs)

/-- `Translator::do_close` (lib.rs lines 116-122): note that on a callback
error `closed` is left unset (the `?` short-circuits). -/
def do_close {E : Type} (cb : Control → Except E Unit) (nbuf : List Nat)
    (st : TransState) : Except E (TransState × List Control) :=
  if st.closed then .ok (st, [])
  else
    match send_control cb nbuf st none with
    | .error e => .error e
    | .ok (st1, cs) => .ok ({ st1 with closed := true }, cs)

/-- `Translator::close` (lib.rs lines 112-114). -/
def close {E : Type} (cb : Control → Except E Unit) (nbuf : List Nat)
    (st : TransState) : Except E (TransState × List Control) :=
  do_close cb nbuf st

/-- `Drop for Translator` (lib.rs lines 125-135): `do_close().unwrap_or(())`
swallows the error; on the error path `prev_match` has already been taken
and `closed` stays unset. -/
def translatorDrop {E : Type} (cb : Control → Except E Unit) (nbuf : List Nat)
    (st : TransState) : TransState :=
  match do_close cb nbuf st with
  | .ok (st', _) => st'
  | .error _ => { st with prev_match := none }

/-- Feed a whole list of matches through `translate`, then `close`
(the shape of `simple_diff_with_params`, lib.rs lines 540-553). -/
def translateAll {E : Type} (cb : Control → Except E Unit) (obuf nbuf : List Nat)
    (st : TransState) : List Match → Except E (TransState × List Control)
  | [] => do_close cb nbuf st
  | m :: rest =>
    match translate cb obuf nbuf st m with
    | .error e => .error e
    | .ok (st1, cs) =>
      match translateAll cb obuf nbuf st1 rest with
      | .error e => .error e
      | .ok (st2, cs2) => .ok (st2, cs ++ cs2)

/-- An `on_control` callback that always succeeds. -/
def okCallback : Control → Except Empty Unit := fun _ => .ok ()

/-- The control stream the translator produces for a list of matches under
an infallible callback. -/
def runTranslator (obuf nbuf : List Nat) (ms : List Match) : List Control :=
  match translateAll okCallback obuf nbuf transInit ms with
  | .ok (_, cs) => cs
  | .error e => e.elim

/-- The control emitted for `pm` when the next match is `m` (`none` at
close). -/
def mkControl (obuf nbuf : List Nat) (pm : Match) (m : Option Match) : Control :=
  { add := (mkDelta obuf nbuf pm).take pm.add_length,
    copy := sliceL nbuf pm.copy_start (pm.copy_end - pm.copy_start),
    seek :=
      match m with
      | some m =>
        (m.add_old_start : Int) - ((pm.add_old_start : Int) + (pm.add_length : Int))
      | none => 0 }

/-- Closed-form description of the translator's output stream. -/
def controlsSpec (obuf nbuf : List Nat) : Match → List Match → List Control
  | pm, [] => [mkControl obuf nbuf pm none]
  | pm, m :: rest => mkControl obuf nbuf pm (some m) :: controlsSpec obuf nbuf m rest

/-! ### Applying controls (the reconstruction loop of
`assert_cycle_with_params`, lib.rs lines 559-595) -/

/-- Apply a stream of `Control` records to `older`: wrapping byte addition
of each add delta onto the old bytes at the current old position, then the
copy bytes verbatim, then the signed seek applied to the old position. -/
def applyControls (older : List Nat) : Int → List Control → List Nat
  | _, [] => []
  | opos, c :: rest =>
    (List.range c.add.length).map
      (fun i => wadd (c.add.getD i 0) (older.getD (opos + (i : Int)).toNat 0)) ++
    c.copy ++
    applyControls older (opos + (c.add.length : Int) + c.seek) rest

/-! ### DiffParams (lib.rs lines 351-413) -/

/-- `DiffParams` (lib.rs lines 352-362). -/
structure DiffParams where
  block_size : Nat
  scan_chunk_size : Option Nat
  num_threads : Option Nat
deriving Repr, DecidableEq

/-- `DiffParams::with_threads` (lib.rs lines 382-402). -/
def DiffParams.with_threads (block_size : Nat)
    (scan_chunk_size num_threads : Option Nat) : Except String DiffParams :=
  if block_size < 4 then .error "block size cannot be less than 4"
  else if (scan_chunk_size.filter (fun s => decide (s < 1))).isSome then
    .error "scan chunk size cannot be less than 1"
  else if (num_threads.filter (fun n => decide (n < 1))).isSome then
    .error "num_threads cannot be less than 1"
  else .ok ⟨block_size, scan_chunk_size, num_threads⟩

/-- `DiffParams::new` (lib.rs lines 374-379). -/
def DiffParams.new (block_size : Nat) (scan_chunk_size : Option Nat) :
    Except String DiffParams :=
  DiffParams.with_threads block_size scan_chunk_size none

end Bidiff

namespace Bidiff

/-! ### Slice algebra and the reconstruction argument -/

theorem sliceL_append (l : List Nat) (s n k : Nat) :
    sliceL l s n ++ sliceL l (s + n) k = sliceL l s (n + k) := by
  unfold sliceL
  rw [List.take_add]
  congr 1
  rw [← List.drop_drop]

theorem sliceL_drop_append (l : List Nat) {a b : Nat} (hab : a ≤ b) :
    sliceL l a (b - a) ++ l.drop b = l.drop a := by
  unfold sliceL
  conv_rhs => rw [← List.take_append_drop (b - a) (l.drop a)]
  congr 1
  rw [List.drop_drop]
  congr 1
  omega

theorem sliceL_to_end (l : List Nat) (s : Nat) :
    sliceL l s (l.length - s) = l.drop s := by
  unfold sliceL
  apply List.take_of_length_le
  simp

theorem sliceL_eq_map_range (l : List Nat) {s n : Nat} (h : s + n ≤ l.length) :
    sliceL l s n = (List.range n).map (fun i => l.getD (s + i) 0) := by
  apply List.ext_getElem
  · rw [sliceL_length_of_le l h]
    simp
  · intro i h1 h2
    rw [List.getElem_map, List.getElem_range]
    rw [sliceL_length_of_le l h] at h1
    have := sliceL_getD l h1 h
    rw [List.getD_eq_getElem _ 0 (by rw [sliceL_length_of_le l h]; omega),
        List.getD_eq_getElem _ 0 (by omega)] at this
    rw [this]

theorem wadd_wsub {n : Nat} (o : Nat) (hn : n < 256) : wadd (wsub n o) o = n := by
  unfold wadd wsub
  omega

theorem mkDelta_length (obuf nbuf : List Nat) (pm : Match)
    (hns : pm.add_new_start + pm.add_length ≤ nbuf.length)
    (hos : pm.add_old_start + pm.add_length ≤ obuf.length) :
    (mkDelta obuf nbuf pm).length = pm.add_length := by
  unfold mkDelta
  rw [List.length_map, List.length_zip,
      sliceL_length_of_le nbuf hns, sliceL_length_of_le obuf hos]
  omega

theorem mkDelta_getD (obuf nbuf : List Nat) (pm : Match)
    (hns : pm.add_new_start + pm.add_length ≤ nbuf.length)
    (hos : pm.add_old_start + pm.add_length ≤ obuf.length)
    {i : Nat} (hi : i < pm.add_length) :
    (mkDelta obuf nbuf pm).getD i 0 =
      wsub (nbuf.getD (pm.add_new_start + i) 0) (obuf.getD (pm.add_old_start + i) 0) := by
  have hlen := mkDelta_length obuf nbuf pm hns hos
  rw [List.getD_eq_getElem _ 0 (by omega)]
  unfold mkDelta
  rw [List.getElem_map, List.getElem_zip]
  rw [← sliceL_getD nbuf hi hns, ← sliceL_getD obuf hi hos,
      List.getD_eq_getElem _ 0 (by rw [sliceL_length_of_le nbuf hns]; omega),
      List.getD_eq_getElem _ 0 (by rw [sliceL_length_of_le obuf hos]; omega)]

theorem mkControl_add (obuf nbuf : List Nat) (pm : Match) (x : Option Match)
    (hns : pm.add_new_start + pm.add_length ≤ nbuf.length)
    (hos : pm.add_old_start + pm.add_length ≤ obuf.length) :
    (mkControl obuf nbuf pm x).add = mkDelta obuf nbuf pm := by
  unfold mkControl
  simp only []
  rw [← mkDelta_length obuf nbuf pm hns hos, List.take_length]

/-- One control's add-then-copy output reconstructs
`nbuf[pm.add_new_start .. pm.copy_end]`. -/
theorem applySegment (obuf nbuf : List Nat) (hBo : IsBytes obuf) (hBn : IsBytes nbuf)
    (pm : Match) (x : Option Match)
    (h1 : pm.add_new_start + pm.add_length ≤ pm.copy_end)
    (h2 : pm.copy_end ≤ nbuf.length)
    (h3 : pm.add_old_start + pm.add_length ≤ obuf.length) :
    (List.range ((mkControl obuf nbuf pm x).add.length)).map
        (fun i => wadd ((mkControl obuf nbuf pm x).add.getD i 0)
          (obuf.getD (((pm.add_old_start : Nat) : Int) + (i : Int)).toNat 0)) ++
      (mkControl obuf nbuf pm x).copy =
    sliceL nbuf pm.add_new_start (pm.copy_end - pm.add_new_start) := by
  have hns : pm.add_new_start + pm.add_length ≤ nbuf.length := by omega
  have hadd := mkControl_add obuf nbuf pm x hns h3
  have hlen := mkDelta_length obuf nbuf pm hns h3
  have hcopy : (mkControl obuf nbuf pm x).copy =
      sliceL nbuf (pm.add_new_start + pm.add_length)
        (pm.copy_end - (pm.add_new_start + pm.add_length)) := by
    unfold mkControl
    simp only [Match.copy_start]
  have hmap : (List.range ((mkControl obuf nbuf pm x).add.length)).map
      (fun i => wadd ((mkControl obuf nbuf pm x).add.getD i 0)
        (obuf.getD (((pm.add_old_start : Nat) : Int) + (i : Int)).toNat 0)) =
      sliceL nbuf pm.add_new_start pm.add_length := by
    rw [hadd, hlen, sliceL_eq_map_range nbuf hns]
    apply List.map_congr_left
    intro i hi
    rw [List.mem_range] at hi
    have htn : (((pm.add_old_start : Nat) : Int) + (i : Int)).toNat =
        pm.add_old_start + i := by omega
    rw [htn, mkDelta_getD obuf nbuf pm hns h3 hi]
    exact wadd_wsub _ (hBn.getD (by omega))
  rw [hmap, hcopy]
  have := sliceL_append nbuf pm.add_new_start pm.add_length
    (pm.copy_end - (pm.add_new_start + pm.add_length))
  rw [this]
  congr 1
  omega

end Bidiff

namespace Bidiff

theorem translateAll_spec (obuf nbuf : List Nat) :
    ∀ (ms : List Match) (pm : Match), ∃ stf,
      translateAll okCallback obuf nbuf ⟨some pm, mkDelta obuf nbuf pm, false⟩ ms =
        .ok (stf, controlsSpec obuf nbuf pm ms) := by
  intro ms
  induction ms with
  | nil =>
    intro pm
    exact ⟨_, rfl⟩
  | cons m rest ih =>
    intro pm
    obtain ⟨stf, hstf⟩ := ih m
    refine ⟨stf, ?_⟩
    have htr : translate okCallback obuf nbuf ⟨some pm, mkDelta obuf nbuf pm, false⟩ m =
        .ok (⟨some m, mkDelta obuf nbuf m, false⟩,
          [mkControl obuf nbuf pm (some m)]) := rfl
    simp only [translateAll]
    rw [htr]
    simp only []
    rw [hstf]
    rfl

theorem runTranslator_nil (obuf nbuf : List Nat) : runTranslator obuf nbuf [] = [] := rfl

theorem runTranslator_cons (obuf nbuf : List Nat) (m : Match) (ms : List Match) :
    runTranslator obuf nbuf (m :: ms) = controlsSpec obuf nbuf m ms := by
  obtain ⟨stf, hstf⟩ := translateAll_spec obuf nbuf ms m
  have htr : translate okCallback obuf nbuf transInit m =
      .ok (⟨some m, mkDelta obuf nbuf m, false⟩, []) := rfl
  unfold runTranslator
  simp only [translateAll]
  rw [htr]
  simp only []
  rw [hstf]
  rfl

/-- Applying the translator's controls for a good match list starting at
`pm` reconstructs `nbuf` from `pm.add_new_start` on. -/
theorem applyControls_spec (obuf nbuf : List Nat) (hBo : IsBytes obuf)
    (hBn : IsBytes nbuf) :
    ∀ (ms : List Match) (pm : Match),
      GoodList obuf.length nbuf.length pm.copy_end ms →
      pm.add_new_start + pm.add_length ≤ pm.copy_end →
      pm.copy_end ≤ nbuf.length →
      pm.add_old_start + pm.add_length ≤ obuf.length →
      applyControls obuf (pm.add_old_start : Int) (controlsSpec obuf nbuf pm ms) =
        nbuf.drop pm.add_new_start := by
  intro ms
  induction ms with
  | nil =>
    intro pm hg h1 h2 h3
    have hce : pm.copy_end = nbuf.length := hg
    simp only [controlsSpec, applyControls, List.append_nil]
    rw [applySegment obuf nbuf hBo hBn pm none h1 h2 h3, hce, sliceL_to_end]
  | cons m rest ih =>
    intro pm hg h1 h2 h3
    obtain ⟨hm1, hm2, hm3, hm4, hg'⟩ := hg
    have hns : pm.add_new_start + pm.add_length ≤ nbuf.length := by omega
    have haddlen : (mkControl obuf nbuf pm (some m)).add.length = pm.add_length := by
      rw [mkControl_add obuf nbuf pm (some m) hns h3]
      exact mkDelta_length obuf nbuf pm hns h3
    have hseek : (mkControl obuf nbuf pm (some m)).seek =
        (m.add_old_start : Int) - ((pm.add_old_start : Int) + (pm.add_length : Int)) := rfl
    have hpos : (pm.add_old_start : Int) +
        ((mkControl obuf nbuf pm (some m)).add.length : Int) +
        (mkControl obuf nbuf pm (some m)).seek = (m.add_old_start : Int) := by
      rw [haddlen, hseek]
      push_cast
      ring
    simp only [controlsSpec, applyControls]
    rw [applySegment obuf nbuf hBo hBn pm (some m) h1 h2 h3, hpos,
        ih m hg' hm2 hm3 hm4, hm1]
    exact sliceL_drop_append nbuf (by omega)

end Bidiff

namespace Bidiff

def mDefault : Match := ⟨0, 0, 0, 0⟩

def cDefault : Control := ⟨[], [], 0⟩

theorem GoodList_bounds {obuflen nbuflen : Nat} :
    ∀ {L : List Match} {s : Nat}, GoodList obuflen nbuflen s L →
      ∀ m ∈ L, m.add_new_start + m.add_length ≤ m.copy_end ∧
        m.copy_end ≤ nbuflen ∧ m.add_old_start + m.add_length ≤ obuflen := by
  intro L
  induction L with
  | nil => intro s _ m hm; cases hm
  | cons m0 rest ih =>
    intro s hg m hm
    obtain ⟨h1, h2, h3, h4, h5⟩ := hg
    rcases hm with _ | hm
    · exact ⟨h2, h3, h4⟩
    · exact ih h5 m (by assumption)

theorem GoodList_chain {obuflen nbuflen : Nat} :
    ∀ {L : List Match} {s : Nat}, GoodList obuflen nbuflen s L →
      ∀ i, i + 1 < L.length →
        (L.getD i mDefault).copy_end = (L.getD (i + 1) mDefault).add_new_start := by
  intro L
  induction L with
  | nil => intro s _ i hi; simp at hi
  | cons m0 rest ih =>
    intro s hg i hi
    obtain ⟨h1, h2, h3, h4, h5⟩ := hg
    cases i with
    | zero =>
      simp only [List.length_cons] at hi
      cases rest with
      | nil => simp at hi
      | cons m1 rest2 =>
        obtain ⟨g1, _, _, _, _⟩ := h5
        simp [g1]
    | succ j =>
      simp only [List.length_cons] at hi
      have := ih h5 j (by omega)
      simpa using this

theorem GoodList_head {obuflen nbuflen : Nat} {L : List Match} {s : Nat}
    (hg : GoodList obuflen nbuflen s L) :
    ∀ m, L.head? = some m → m.add_new_start = s := by
  cases L with
  | nil => intro m hm; cases hm
  | cons m0 rest =>
    intro m hm
    rw [← Option.some.inj hm]
    exact hg.1

theorem GoodList_last {obuflen nbuflen : Nat} :
    ∀ {L : List Match} {s : Nat}, GoodList obuflen nbuflen s L →
      ∀ m, L.getLast? = some m → m.copy_end = nbuflen := by
  intro L
  induction L with
  | nil => intro s _ m hm; cases hm
  | cons m0 rest ih =>
    intro s hg m hm
    obtain ⟨h1, h2, h3, h4, h5⟩ := hg
    cases rest with
    | nil =>
      have hm0 : m = m0 := by
        simp [List.getLast?] at hm
        exact hm.symm
      rw [hm0]
      have : GoodList obuflen nbuflen m0.copy_end ([] : List Match) := h5
      exact this
    | cons m1 rest2 =>
      rw [List.getLast?_cons_cons] at hm
      exact ih h5 m hm

theorem GoodList_sum {obuflen nbuflen : Nat} :
    ∀ {L : List Match} {s : Nat}, GoodList obuflen nbuflen s L → s ≤ nbuflen →
      (L.map (fun m => m.copy_end - m.add_new_start)).sum = nbuflen - s := by
  intro L
  induction L with
  | nil =>
    intro s hg _
    have : s = nbuflen := hg
    simp [this]
  | cons m0 rest ih =>
    intro s hg hs
    obtain ⟨h1, h2, h3, h4, h5⟩ := hg
    have hce : m0.copy_end ≤ nbuflen := h3
    have := ih h5 hce
    simp only [List.map_cons, List.sum_cons, this]
    omega

/-- The invariant holds at the initial scan state. -/
theorem initState_inv (obuf nbuf : List Nat) : Inv obuf nbuf initState := by
  simp [Inv, initState]

/-- The matches of a diff form a good list (tile `nbuf` with in-bounds
fields). -/
theorem diffMatches_good (obuf nbuf : List Nat) (bs : Nat) (hBo : IsBytes obuf)
    (hBn : IsBytes nbuf) (hbs : 1 ≤ bs) :
    GoodList obuf.length nbuf.length 0 (diffMatches obuf nbuf bs) := by
  have h := scanAll_good obuf nbuf (hashIndexNew obuf bs) hBo hBn
    (hashIndexNew_text obuf bs) (by rw [hashIndexNew_blockSize]; omega)
    (scanMu nbuf.length initState) initState (le_refl _) (initState_inv obuf nbuf)
  exact h

/-- The first emitted match starts at old offset 0 and new offset 0. -/
theorem diffMatches_head (obuf nbuf : List Nat) (bs : Nat) (hBo : IsBytes obuf)
    (hBn : IsBytes nbuf) (hbs : 1 ≤ bs) {m : Match} {rest : List Match}
    (h : diffMatches obuf nbuf bs = m :: rest) :
    m.add_old_start = 0 ∧ m.add_new_start = 0 := by
  unfold diffMatches at h
  cases hn : next obuf nbuf (hashIndexNew obuf bs) initState with
  | none => rw [scanAll_none hn] at h; exact List.noConfusion h
  | some p =>
    obtain ⟨m', st'⟩ := p
    rw [scanAll_some hn] at h
    have hm : m = m' := (List.cons.inj h).1.symm
    obtain ⟨e1, e2, _⟩ := next_some_facts obuf nbuf (hashIndexNew obuf bs) hBo hBn
      (hashIndexNew_text obuf bs) (by rw [hashIndexNew_blockSize]; omega)
      (initState_inv obuf nbuf) hn
    rw [hm]
    exact ⟨e1, e2⟩

end Bidiff

namespace Bidiff

/-- C1: for every pair of byte buffers, feeding the Matches produced by
`diff(older, newer, params)` through the Translator and applying the
resulting Control records to `older` (wrapping byte addition of each add
delta onto the old bytes at the current old position, then appending the
copy bytes verbatim, then applying the signed seek to the old position)
reconstructs a byte sequence equal to `newer`. -/
theorem claim_C1_roundtrip (obuf nbuf : List Nat) (bs : Nat) (hBo : IsBytes obuf)
    (hBn : IsBytes nbuf) (hbs : 4 ≤ bs) :
    applyControls obuf 0 (runTranslator obuf nbuf (diffMatches obuf nbuf bs)) = nbuf := by
  have hgood := diffMatches_good obuf nbuf bs hBo hBn (by omega)
  cases hms : diffMatches obuf nbuf bs with
  | nil =>
    rw [hms] at hgood
    have hlen : nbuf.length = 0 := hgood.symm
    rw [runTranslator_nil]
    show ([] : List Nat) = nbuf
    rw [List.eq_nil_of_length_eq_zero hlen]
  | cons m1 rest =>
    rw [hms] at hgood
    obtain ⟨g1, g2, g3, g4, g5⟩ := hgood
    obtain ⟨hos, hns⟩ := diffMatches_head obuf nbuf bs hBo hBn (by omega) hms
    rw [runTranslator_cons]
    have := applyControls_spec obuf nbuf hBo hBn rest m1 g5 g2 g3 g4
    rw [hos, Nat.cast_zero] at this
    rw [this, hns, List.drop_zero]

/-- C2: the matches emitted by the single-threaded scan tile `nbuf`
exactly — consecutive matches chain `copy_end = next.add_new_start`, the
first starts at 0, the last ends at `|nbuf|`, and the covered lengths sum
to `|nbuf|`. -/
theorem claim_C2_cover (obuf nbuf : List Nat) (bs : Nat) (hBo : IsBytes obuf)
    (hBn : IsBytes nbuf) (hbs : 4 ≤ bs) :
    (∀ i, i + 1 < (diffMatches obuf nbuf bs).length →
      ((diffMatches obuf nbuf bs).getD i mDefault).copy_end =
        ((diffMatches obuf nbuf bs).getD (i + 1) mDefault).add_new_start) ∧
    (∀ m, (diffMatches obuf nbuf bs).head? = some m → m.add_new_start = 0) ∧
    (∀ m, (diffMatches obuf nbuf bs).getLast? = some m → m.copy_end = nbuf.length) ∧
    ((diffMatches obuf nbuf bs).map
      (fun m => m.copy_end - m.add_new_start)).sum = nbuf.length := by
  have hgood := diffMatches_good obuf nbuf bs hBo hBn (by omega)
  refine ⟨GoodList_chain hgood, GoodList_head hgood, GoodList_last hgood, ?_⟩
  have := GoodList_sum hgood (Nat.zero_le _)
  simpa using this

/-- C3: every match emitted by the scan satisfies the bounds invariants
`add_new_start + add_length ≤ copy_end ≤ |nbuf|` and
`add_old_start + add_length ≤ |obuf|`. -/
theorem claim_C3_bounds (obuf nbuf : List Nat) (bs : Nat) (hBo : IsBytes obuf)
    (hBn : IsBytes nbuf) (hbs : 4 ≤ bs) :
    ∀ m ∈ diffMatches obuf nbuf bs,
      m.add_new_start + m.add_length ≤ m.copy_end ∧ m.copy_end ≤ nbuf.length ∧
      m.add_old_start + m.add_length ≤ obuf.length :=
  GoodList_bounds (diffMatches_good obuf nbuf bs hBo hBn (by omega))

theorem claim_C1_roundtrip_witness :
    IsBytes [1, 2, 3] ∧ IsBytes [1, 2, 7, 9] ∧ 4 ≤ 4 ∧
    applyControls [1, 2, 3] 0
      (runTranslator [1, 2, 3] [1, 2, 7, 9] (diffMatches [1, 2, 3] [1, 2, 7, 9] 4)) =
      [1, 2, 7, 9] :=
  ⟨by intro x hx; fin_cases hx <;> omega, by intro x hx; fin_cases hx <;> omega,
    le_refl 4,
    claim_C1_roundtrip [1, 2, 3] [1, 2, 7, 9] 4
      (by intro x hx; fin_cases hx <;> omega)
      (by intro x hx; fin_cases hx <;> omega) (le_refl 4)⟩

theorem claim_C2_cover_witness :
    IsBytes [1, 2, 3] ∧ IsBytes [1, 2, 7, 9] ∧ 4 ≤ 4 ∧
    (((diffMatches [1, 2, 3] [1, 2, 7, 9] 4).map
      (fun m => m.copy_end - m.add_new_start)).sum = 4) :=
  ⟨by intro x hx; fin_cases hx <;> omega, by intro x hx; fin_cases hx <;> omega,
    le_refl 4,
    (claim_C2_cover [1, 2, 3] [1, 2, 7, 9] 4
      (by intro x hx; fin_cases hx <;> omega)
      (by intro x hx; fin_cases hx <;> omega) (le_refl 4)).2.2.2⟩

theorem claim_C3_bounds_witness :
    IsBytes [1, 2, 3] ∧ IsBytes [1, 2, 7, 9] ∧ 4 ≤ 4 ∧
    (∀ m ∈ diffMatches [1, 2, 3] [1, 2, 7, 9] 4,
      m.add_new_start + m.add_length ≤ m.copy_end ∧ m.copy_end ≤ 4 ∧
      m.add_old_start + m.add_length ≤ 3) :=
  ⟨by intro x hx; fin_cases hx <;> omega, by intro x hx; fin_cases hx <;> omega,
    le_refl 4,
    claim_C3_bounds [1, 2, 3] [1, 2, 7, 9] 4
      (by intro x hx; fin_cases hx <;> omega)
      (by intro x hx; fin_cases hx <;> omega) (le_refl 4)⟩

end Bidiff

namespace Bidiff

theorem controlsSpec_length (obuf nbuf : List Nat) :
    ∀ (ms : List Match) (pm : Match),
      (controlsSpec obuf nbuf pm ms).length = ms.length + 1 := by
  intro ms
  induction ms with
  | nil => intro pm; rfl
  | cons m rest ih =>
    intro pm
    simp only [controlsSpec, List.length_cons, ih m]

theorem controlsSpec_seek (obuf nbuf : List Nat) :
    ∀ (ms : List Match) (pm : Match) (i : Nat), i < ms.length →
      ((controlsSpec obuf nbuf pm ms).getD i cDefault).seek =
        ((ms.getD i mDefault).add_old_start : Int) -
          ((((pm :: ms).getD i mDefault).add_old_start : Int) +
            (((pm :: ms).getD i mDefault).add_length : Int)) := by
  intro ms
  induction ms with
  | nil => intro pm i hi; simp at hi
  | cons m rest ih =>
    intro pm i hi
    cases i with
    | zero => rfl
    | succ j =>
      simp only [List.length_cons] at hi
      have := ih m j (by omega)
      simpa [controlsSpec] using this

theorem controlsSpec_last_seek (obuf nbuf : List Nat) :
    ∀ (ms : List Match) (pm : Match) (c : Control),
      (controlsSpec obuf nbuf pm ms).getLast? = some c → c.seek = 0 := by
  intro ms
  induction ms with
  | nil =>
    intro pm c hc
    simp [controlsSpec, List.getLast?] at hc
    rw [← hc]
    rfl
  | cons m rest ih =>
    intro pm c hc
    have hne : controlsSpec obuf nbuf m rest ≠ [] := by
      cases rest <;> simp [controlsSpec]
    rw [show controlsSpec obuf nbuf pm (m :: rest) =
        mkControl obuf nbuf pm (some m) :: controlsSpec obuf nbuf m rest from rfl] at hc
    cases hcs : controlsSpec obuf nbuf m rest with
    | nil => exact absurd hcs hne
    | cons c0 cs0 =>
      rw [hcs, List.getLast?_cons_cons] at hc
      rw [← hcs] at hc
      exact ih m c hc

/-- C4: for every sequence of matches fed through `translate` and then
`close`, the control emitted for each non-final match `mᵢ` has
`seek = m₍ᵢ₊₁₎.add_old_start - (mᵢ.add_old_start + mᵢ.add_length)` (signed,
possibly negative), and the control emitted on close for the final match
has `seek = 0`. -/
theorem claim_C4_seeks (obuf nbuf : List Nat) (ms : List Match) :
    (runTranslator obuf nbuf ms).length = ms.length ∧
    (∀ i, i + 1 < ms.length →
      ((runTranslator obuf nbuf ms).getD i cDefault).seek =
        ((ms.getD (i + 1) mDefault).add_old_start : Int) -
          (((ms.getD i mDefault).add_old_start : Int) +
            ((ms.getD i mDefault).add_length : Int))) ∧
    (∀ c, (runTranslator obuf nbuf ms).getLast? = some c → c.seek = 0) := by
  cases ms with
  | nil =>
    rw [runTranslator_nil]
    exact ⟨rfl, fun i hi => by simp at hi, fun c hc => by cases hc⟩
  | cons m rest =>
    rw [runTranslator_cons]
    refine ⟨by rw [controlsSpec_length]; rfl, ?_, controlsSpec_last_seek obuf nbuf rest m⟩
    intro i hi
    simp only [List.length_cons] at hi
    have := controlsSpec_seek obuf nbuf rest m i (by omega)
    simpa using this

theorem claim_C4_seeks_witness :
    (runTranslator [5] [6] [⟨0, 0, 1, 1⟩]).length = 1 ∧
    (∀ i, i + 1 < ([⟨0, 0, 1, 1⟩] : List Match).length →
      ((runTranslator [5] [6] [⟨0, 0, 1, 1⟩]).getD i cDefault).seek =
        ((([⟨0, 0, 1, 1⟩] : List Match).getD (i + 1) mDefault).add_old_start : Int) -
          (((([⟨0, 0, 1, 1⟩] : List Match).getD i mDefault).add_old_start : Int) +
            ((([⟨0, 0, 1, 1⟩] : List Match).getD i mDefault).add_length : Int))) ∧
    (∀ c, (runTranslator [5] [6] [⟨0, 0, 1, 1⟩]).getLast? = some c → c.seek = 0) :=
  claim_C4_seeks [5] [6] [⟨0, 0, 1, 1⟩]

end Bidiff

namespace Bidiff

/-- C9: closing the translator is idempotent and implicit close never
raises — after a first close has emitted the final control, any further
close (including the implicit close on drop) emits nothing, changes no
state and returns no error; errors raised during the implicit close on
drop are swallowed (`translatorDrop` is total and returns the unchanged
state here). -/
theorem claim_C9_close_idempotent {E : Type} (cb : Control → Except E Unit)
    (nbuf : List Nat) (st st' : TransState) (cs : List Control)
    (h : do_close cb nbuf st = .ok (st', cs)) :
    do_close cb nbuf st' = .ok (st', []) ∧ translatorDrop cb nbuf st' = st' := by
  have hc : st'.closed = true := by
    unfold do_close at h
    split at h
    · next hcl =>
      obtain ⟨h1, h2⟩ := Prod.mk.inj (Except.ok.inj h)
      rw [← h1]
      exact hcl
    · next hcl =>
      rcases hs : send_control cb nbuf st none with e | p <;> rw [hs] at h
      · exact Except.noConfusion h
      · obtain ⟨st1, cs1⟩ := p
        simp only [] at h
        obtain ⟨h1, h2⟩ := Prod.mk.inj (Except.ok.inj h)
        rw [← h1]
  have hd : do_close cb nbuf st' = .ok (st', []) := by
    unfold do_close
    rw [if_pos hc]
  refine ⟨hd, ?_⟩
  unfold translatorDrop
  rw [hd]

theorem claim_C9_close_idempotent_witness :
    do_close okCallback [] ⟨none, [], true⟩ = .ok (⟨none, [], true⟩, []) ∧
    translatorDrop okCallback [] ⟨none, [], true⟩ = ⟨none, [], true⟩ :=
  claim_C9_close_idempotent okCallback [] transInit ⟨none, [], true⟩ [] rfl

end Bidiff

namespace Bidiff

theorem getD_eq_getD_iff (a b : List Nat) (i : Nat) (ha : i < a.length)
    (hb : i < b.length) :
    (a.getD i 0 = b.getD i 0) ↔ (a.get ⟨i, ha⟩ = b.get ⟨i, hb⟩) := by
  rw [List.getD_eq_getElem a 0 ha, List.getD_eq_getElem b 0 hb]
  simp

/-- C6: for every pair of byte slices, `common_prefix_len(a, b)` returns
the largest `k` with `k ≤ min(|a|, |b|)` and `a[..k] = b[..k]`. -/
theorem claim_C6_common_prefix (a b : List Nat) (hA : IsBytes a) (hB : IsBytes b) :
    common_prefix_len a b ≤ min a.length b.length ∧
    a.take (common_prefix_len a b) = b.take (common_prefix_len a b) ∧
    ∀ k, k ≤ min a.length b.length → a.take k = b.take k →
      k ≤ common_prefix_len a b := by
  obtain ⟨h1, h2, h3⟩ := common_prefix_len_spec a b hA hB
  refine ⟨h1, ?_, ?_⟩
  · apply List.ext_getElem
    · rw [List.length_take, List.length_take]
      omega
    · intro i hi1 hi2
      rw [List.length_take] at hi1
      rw [List.getElem_take, List.getElem_take]
      have hia : i < a.length := by omega
      have hib : i < b.length := by omega
      have := (getD_eq_getD_iff a b i hia hib).1 (h2 i (by omega))
      simpa using this
  · intro k hk htake
    by_contra hgt
    push_neg at hgt
    have hcm : common_prefix_len a b < min a.length b.length := by omega
    have hne := h3 hcm
    apply hne
    have e1 : (a.take k).getD (common_prefix_len a b) 0 =
        (b.take k).getD (common_prefix_len a b) 0 := by rw [htake]
    have hla : common_prefix_len a b < (a.take k).length := by
      rw [List.length_take]
      omega
    have hlb : common_prefix_len a b < (b.take k).length := by
      rw [List.length_take]
      omega
    have hca : common_prefix_len a b < a.length := by omega
    have hcb : common_prefix_len a b < b.length := by omega
    have e2 : (a.take k).get ⟨common_prefix_len a b, hla⟩ =
        (b.take k).get ⟨common_prefix_len a b, hlb⟩ :=
      ((getD_eq_getD_iff (a.take k) (b.take k) _ hla hlb).1 e1)
    simp only [List.get_eq_getElem, List.getElem_take] at e2
    apply (getD_eq_getD_iff a b _ hca hcb).2
    simpa using e2

theorem claim_C6_common_prefix_witness :
    IsBytes [1, 2, 3] ∧ IsBytes [1, 2, 9, 9] ∧
    (common_prefix_len [1, 2, 3] [1, 2, 9, 9] ≤ min 3 4 ∧
     ([1, 2, 3] : List Nat).take (common_prefix_len [1, 2, 3] [1, 2, 9, 9]) =
       ([1, 2, 9, 9] : List Nat).take (common_prefix_len [1, 2, 3] [1, 2, 9, 9]) ∧
     ∀ k, k ≤ min 3 4 →
       ([1, 2, 3] : List Nat).take k = ([1, 2, 9, 9] : List Nat).take k →
       k ≤ common_prefix_len [1, 2, 3] [1, 2, 9, 9]) :=
  ⟨by intro x hx; fin_cases hx <;> omega, by intro x hx; fin_cases hx <;> omega,
    claim_C6_common_prefix [1, 2, 3] [1, 2, 9, 9]
      (by intro x hx; fin_cases hx <;> omega)
      (by intro x hx; fin_cases hx <;> omega)⟩

/-- C7: if the needle is shorter than the block size or the indexed text
is shorter than the block size, `longest_substring_match` (and its
with-hash variant) return the no-match result `(0, 0)`. -/
theorem claim_C7_short_inputs (idx : HashIndexM) (needle : List Nat)
    (h : needle.length < idx.blockSize ∨ idx.text.length < idx.blockSize) :
    longest_substring_match idx needle = (0, 0) ∧
    ∀ hh : Nat, longest_substring_match_with_hash idx needle hh = (0, 0) := by
  constructor
  · unfold longest_substring_match
    rw [if_pos h]
  · intro hh
    unfold longest_substring_match_with_hash
    rw [if_pos h]

theorem claim_C7_short_inputs_witness :
    longest_substring_match ⟨[], 4, fun _ => 0, 0⟩ [1] = (0, 0) ∧
    ∀ hh : Nat, longest_substring_match_with_hash ⟨[], 4, fun _ => 0, 0⟩ [1] hh = (0, 0) :=
  claim_C7_short_inputs ⟨[], 4, fun _ => 0, 0⟩ [1] (Or.inl (by simp))

end Bidiff

namespace Bidiff

theorem filter_lt_one_isSome (o : Option Nat) :
    (o.filter (fun s => decide (s < 1))).isSome = true ↔ ∃ s, o = some s ∧ s < 1 := by
  cases o with
  | none => simp [Option.filter]
  | some s =>
    by_cases h : s < 1 <;> simp [Option.filter, h] <;> omega

/-- C8: `DiffParams` construction (`new` / `with_threads`) returns an
error exactly when a parameter is invalid — `block_size < 4`, or a
provided `scan_chunk_size < 1`, or a provided `num_threads < 1` — and for
all other argument combinations succeeds and stores the parameters
unchanged. -/
theorem claim_C8_params (block_size : Nat) (scs nt : Option Nat) :
    ((∃ e, DiffParams.with_threads block_size scs nt = .error e) ↔
      (block_size < 4 ∨ (∃ s, scs = some s ∧ s < 1) ∨ (∃ n, nt = some n ∧ n < 1))) ∧
    ((¬(block_size < 4 ∨ (∃ s, scs = some s ∧ s < 1) ∨ (∃ n, nt = some n ∧ n < 1))) →
      DiffParams.with_threads block_size scs nt = .ok ⟨block_size, scs, nt⟩) ∧
    DiffParams.new block_size scs = DiffParams.with_threads block_size scs none := by
  refine ⟨?_, ?_, rfl⟩
  · unfold DiffParams.with_threads
    by_cases h1 : block_size < 4
    · rw [if_pos h1]
      exact ⟨fun _ => Or.inl h1, fun _ => ⟨_, rfl⟩⟩
    · rw [if_neg h1]
      by_cases h2 : (scs.filter (fun s => decide (s < 1))).isSome = true
      · rw [if_pos h2]
        rw [filter_lt_one_isSome] at h2
        exact ⟨fun _ => Or.inr (Or.inl h2), fun _ => ⟨_, rfl⟩⟩
      · rw [if_neg h2]
        rw [filter_lt_one_isSome] at h2
        by_cases h3 : (nt.filter (fun n => decide (n < 1))).isSome = true
        · rw [if_pos h3]
          rw [filter_lt_one_isSome] at h3
          exact ⟨fun _ => Or.inr (Or.inr h3), fun _ => ⟨_, rfl⟩⟩
        · rw [if_neg h3]
          rw [filter_lt_one_isSome] at h3
          constructor
          · rintro ⟨e, he⟩
            exact Except.noConfusion he
          · rintro (h | h | h)
            · exact absurd h h1
            · exact absurd h h2
            · exact absurd h h3
  · intro h
    push_neg at h
    obtain ⟨h1, h2, h3⟩ := h
    unfold DiffParams.with_threads
    rw [if_neg (by omega : ¬ block_size < 4), if_neg ?sc, if_neg ?nt]
    case sc =>
      rw [filter_lt_one_isSome]
      rintro ⟨s, hs, hlt⟩
      have := h2 s hs
      omega
    case nt =>
      rw [filter_lt_one_isSome]
      rintro ⟨n, hn, hlt⟩
      have := h3 n hn
      omega

theorem claim_C8_params_witness :
    ((∃ e, DiffParams.with_threads 4 none (some 2) = .error e) ↔
      (4 < 4 ∨ (∃ s, (none : Option Nat) = some s ∧ s < 1) ∨
        (∃ n, (some 2 : Option Nat) = some n ∧ n < 1))) ∧
    ((¬(4 < 4 ∨ (∃ s, (none : Option Nat) = some s ∧ s < 1) ∨
        (∃ n, (some 2 : Option Nat) = some n ∧ n < 1))) →
      DiffParams.with_threads 4 none (some 2) = .ok ⟨4, none, some 2⟩) ∧
    DiffParams.new 4 none = DiffParams.with_threads 4 none none :=
  claim_C8_params 4 none (some 2)

end Bidiff

namespace Bidiff

theorem and_mask_hi (h : Nat) :
    h &&& 0xFFFFFFFF00000000 = 2 ^ 32 * ((h >>> 32) % 2 ^ 32) := by
  apply Nat.eq_of_testBit_eq
  intro i
  have hmask : (0xFFFFFFFF00000000 : Nat) = 2 ^ 32 * (2 ^ 32 - 1) + 0 := by norm_num
  have hrhs : 2 ^ 32 * ((h >>> 32) % 2 ^ 32) = 2 ^ 32 * ((h >>> 32) % 2 ^ 32) + 0 := by ring
  rw [Nat.testBit_and, hmask, Nat.testBit_mul_pow_two_add _ (by norm_num) i, hrhs,
      Nat.testBit_mul_pow_two_add _ (by norm_num) i]
  by_cases hi : i < 32
  · simp [hi]
  · rw [if_neg hi, if_neg hi, Nat.testBit_two_pow_sub_one, Nat.testBit_mod_two_pow,
        Nat.testBit_shiftRight, show 32 + (i - 32) = i by omega]
    exact Bool.and_comm _ _

theorem or_low (n a b : Nat) (hb : b < 2 ^ n) : (2 ^ n * a) ||| b = 2 ^ n * a + b := by
  apply Nat.eq_of_testBit_eq
  intro i
  rw [Nat.testBit_or, Nat.testBit_mul_pow_two_add a hb i, Nat.testBit_mul_pow_two]
  by_cases hi : i < n
  · rw [if_pos hi]
    have : ¬ (i ≥ n) := by omega
    simp [this]
  · rw [if_neg hi]
    have hb' : b < 2 ^ i := lt_of_lt_of_le hb (Nat.pow_le_pow_right (by omega) (by omega))
    simp [show i ≥ n by omega, Nat.testBit_lt_two_pow hb']

theorem or_two_pow_mul (n a b : Nat) : (2 ^ n * a) ||| (2 ^ n * b) = 2 ^ n * (a ||| b) := by
  apply Nat.eq_of_testBit_eq
  intro i
  rw [Nat.testBit_or, Nat.testBit_mul_pow_two, Nat.testBit_mul_pow_two,
      Nat.testBit_mul_pow_two, Nat.testBit_or]
  by_cases hi : i ≥ n
  · simp [hi]
  · simp [hi]

theorem pack_entry_eq (offset h : Nat) (hof : offset + 1 < 2 ^ 32) :
    pack_entry offset h = 2 ^ 32 * ((h >>> 32) % 2 ^ 32) + (offset + 1) := by
  unfold pack_entry
  rw [and_mask_hi, or_low 32 _ _ hof]

theorem pack_entry_top (h : Nat) :
    pack_entry (2 ^ 32 - 1) h = 2 ^ 32 * (((h >>> 32) % 2 ^ 32) ||| 1) := by
  unfold pack_entry
  rw [and_mask_hi]
  have : (2 ^ 32 - 1) + 1 = 2 ^ 32 * 1 := by norm_num
  rw [this, or_two_pow_mul 32]

/-- C10 (amended): the 64-bit entry packing round-trips for every offset
below `2 ^ 32 - 1` and is never `EMPTY`; at offset `2 ^ 32 - 1` the stored
`offset + 1` spills into bit 32, `entry_offset` still recovers the offset
through the wrap-around of the `u32` subtraction, and `entry_tag` yields
`(h >> 32) ||| 1`, differing from `h >> 32` exactly when bit 32 of `h` is
clear. -/
theorem claim_C10_pack_roundtrip (offset h : Nat) (hoff : offset < 2 ^ 32)
    (hh : h < 2 ^ 64) :
    (offset < 2 ^ 32 - 1 →
      entry_offset (pack_entry offset h) = offset ∧
      entry_tag (pack_entry offset h) = h >>> 32 ∧
      pack_entry offset h ≠ EMPTY) ∧
    (offset = 2 ^ 32 - 1 →
      entry_offset (pack_entry offset h) = offset ∧
      entry_tag (pack_entry offset h) = (h >>> 32) ||| 1 ∧
      pack_entry offset h ≠ EMPTY) := by
  have hT : (h >>> 32) % 2 ^ 32 = h >>> 32 := by
    apply Nat.mod_eq_of_lt
    rw [Nat.shiftRight_eq_div_pow]
    omega
  constructor
  · intro hlt
    have hp := pack_entry_eq offset h (by omega)
    refine ⟨?_, ?_, ?_⟩
    · unfold entry_offset
      rw [hp]
      omega
    · unfold entry_tag
      rw [hp, Nat.shiftRight_eq_div_pow]
      have : (2 ^ 32 * ((h >>> 32) % 2 ^ 32) + (offset + 1)) / 2 ^ 32 =
          (h >>> 32) % 2 ^ 32 := by omega
      rw [this, hT, Nat.mod_eq_of_lt]
      rw [Nat.shiftRight_eq_div_pow]
      omega
    · unfold EMPTY
      rw [hp]
      omega
  · intro htop
    rw [htop]
    have hp := pack_entry_top h
    have hor : ((h >>> 32) % 2 ^ 32) ||| 1 < 2 ^ 32 :=
      Nat.or_lt_two_pow (Nat.mod_lt _ (by norm_num)) (by norm_num)
    have hor1 : 1 ≤ ((h >>> 32) % 2 ^ 32) ||| 1 := by
      have : (((h >>> 32) % 2 ^ 32) ||| 1) % 2 = 1 := by
        rw [Nat.or_mod_two_eq_one]
        right
        rfl
      omega
    refine ⟨?_, ?_, ?_⟩
    · unfold entry_offset
      rw [hp]
      omega
    · unfold entry_tag
      rw [hp, Nat.shiftRight_eq_div_pow]
      have hdiv : (2 ^ 32 * (((h >>> 32) % 2 ^ 32) ||| 1)) / 2 ^ 32 =
          (((h >>> 32) % 2 ^ 32) ||| 1) := by omega
      rw [hdiv, Nat.mod_eq_of_lt hor, hT]
    · unfold EMPTY
      rw [hp]
      omega

/-- C10 counterexample: at `offset = 2 ^ 32 - 1` and `h = 2 ^ 32` (bit 32
of `h` set) the packing round-trip succeeds in full, contradicting the
claim that the round-trip fails at that offset. -/
theorem claim_C10_counterexample :
    entry_offset (pack_entry (2 ^ 32 - 1) (2 ^ 32)) = 2 ^ 32 - 1 ∧
    entry_tag (pack_entry (2 ^ 32 - 1) (2 ^ 32)) = (2 ^ 32 : Nat) >>> 32 ∧
    pack_entry (2 ^ 32 - 1) (2 ^ 32) ≠ EMPTY := by
  have hp := pack_entry_top (2 ^ 32)
  have h1 : ((2 ^ 32 : Nat) >>> 32) % 2 ^ 32 = 1 := by
    rw [Nat.shiftRight_eq_div_pow]
    norm_num
  have h11 : (1 : Nat) ||| 1 = 1 := rfl
  rw [h1, h11] at hp
  have hshift : (2 ^ 32 : Nat) >>> 32 = 1 := by
    rw [Nat.shiftRight_eq_div_pow]
    norm_num
  refine ⟨?_, ?_, ?_⟩
  · unfold entry_offset
    rw [hp]
    norm_num
  · unfold entry_tag
    rw [hp, hshift, Nat.shiftRight_eq_div_pow]
    norm_num
  · unfold EMPTY
    rw [hp]
    norm_num

theorem claim_C10_pack_roundtrip_witness :
    (5 : Nat) < 2 ^ 32 ∧ (2 ^ 40 : Nat) < 2 ^ 64 ∧
    ((5 < 2 ^ 32 - 1 →
      entry_offset (pack_entry 5 (2 ^ 40)) = 5 ∧
      entry_tag (pack_entry 5 (2 ^ 40)) = (2 ^ 40 : Nat) >>> 32 ∧
      pack_entry 5 (2 ^ 40) ≠ EMPTY) ∧
    (5 = 2 ^ 32 - 1 →
      entry_offset (pack_entry 5 (2 ^ 40)) = 5 ∧
      entry_tag (pack_entry 5 (2 ^ 40)) = ((2 ^ 40 : Nat) >>> 32) ||| 1 ∧
      pack_entry 5 (2 ^ 40) ≠ EMPTY)) :=
  ⟨by norm_num, by norm_num,
    claim_C10_pack_roundtrip 5 (2 ^ 40) (by norm_num) (by norm_num)⟩

end Bidiff

namespace Bidiff

/-- Number of buckets scanned by the probe loop of
`longest_substring_match`'s lookup, entered as `lookup_with_hash` enters
it (start bucket `h & mask`, `probes = 0`). -/
def lookupBuckets (idx : HashIndexM) (block : List Nat) (h : Nat) : Nat :=
  lookupLoopBuckets idx block ((h >>> 32) % 2 ^ 32) (h &&& idx.mask) 0

theorem lookupLoopBuckets_le (idx : HashIndexM) (block : List Nat) (tag : Nat) :
    ∀ fuel probes bucket, 5 - probes ≤ fuel → probes ≤ 4 →
      lookupLoopBuckets idx block tag bucket probes ≤ 5 - probes := by
  intro fuel
  induction fuel with
  | zero => intro probes bucket hf hp; omega
  | succ fuel ih =>
    intro probes bucket hf hp
    rw [lookupLoopBuckets]
    rcases hout : bucketScanAux idx.text idx.blockSize idx.table block tag
        (bucket * BUCKET_SIZE) BUCKET_SIZE with o | _ | _
    · exact (show (1 : Nat) ≤ 5 - probes by omega)
    · exact (show (1 : Nat) ≤ 5 - probes by omega)
    · show (if _ : probes + 1 > 4 then 1
        else 1 + lookupLoopBuckets idx block tag ((bucket + 1) &&& idx.mask) (probes + 1)) ≤
          5 - probes
      by_cases hpr : probes + 1 > 4
      · rw [dif_pos hpr]
        omega
      · rw [dif_neg hpr]
        have := ih (probes + 1) ((bucket + 1) &&& idx.mask) (by omega) (by omega)
        omega

theorem bucketScanAux_empty (text : List Nat) (bs : Nat) (tbl : Nat → Nat)
    (block : List Nat) (tag : Nat) :
    ∀ j left slot, j < left → tbl (slot + j) = EMPTY →
      (∀ k < j, tbl (slot + k) ≠ EMPTY ∧
        ¬(entry_tag (tbl (slot + k)) = tag ∧
          sliceL text (entry_offset (tbl (slot + k))) bs = block)) →
      bucketScanAux text bs tbl block tag slot left = .emptyFound := by
  intro j
  induction j with
  | zero =>
    intro left slot hj he _
    cases left with
    | zero => omega
    | succ left' =>
      rw [bucketScanAux]
      rw [if_pos (by simpa using he)]
  | succ j ih =>
    intro left slot hj he hk
    cases left with
    | zero => omega
    | succ left' =>
      obtain ⟨hne0, hnh0⟩ := hk 0 (by omega)
      rw [bucketScanAux]
      rw [if_neg (by simpa using hne0), if_neg (by simpa using hnh0)]
      apply ih left' (slot + 1) (by omega)
      · rw [show slot + 1 + j = slot + (j + 1) by omega]
        exact he
      · intro k hk'
        rw [show slot + 1 + k = slot + (k + 1) by omega]
        exact hk (k + 1) (by omega)

theorem lookupLoop_empty (idx : HashIndexM) (block : List Nat) (tag : Nat)
    (bucket probes : Nat) {j : Nat} (hj : j < BUCKET_SIZE)
    (he : idx.table (bucket * BUCKET_SIZE + j) = EMPTY)
    (hk : ∀ k < j, idx.table (bucket * BUCKET_SIZE + k) ≠ EMPTY ∧
      ¬(entry_tag (idx.table (bucket * BUCKET_SIZE + k)) = tag ∧
        sliceL idx.text (entry_offset (idx.table (bucket * BUCKET_SIZE + k)))
          idx.blockSize = block)) :
    lookupLoop idx block tag bucket probes = none := by
  rw [lookupLoop]
  rw [bucketScanAux_empty idx.text idx.blockSize idx.table block tag j BUCKET_SIZE
    (bucket * BUCKET_SIZE) hj he hk]

/-- C5 (amended): scanning a bucket stops with a no-match as soon as an
EMPTY slot is reached (no earlier hit or EMPTY in that bucket), and in the
absence of an EMPTY slot the lookup scans at most **5** buckets — the
starting bucket `h & mask` plus up to 4 overflow buckets (the source
increments `probes` after each bucket and gives up once `probes > 4`) —
before returning no-match. -/
theorem claim_C5_lookup_probes (idx : HashIndexM) (block : List Nat) (h : Nat) :
    lookupBuckets idx block h ≤ 5 ∧
    (∀ bucket probes j, j < BUCKET_SIZE →
      idx.table (bucket * BUCKET_SIZE + j) = EMPTY →
      (∀ k < j, idx.table (bucket * BUCKET_SIZE + k) ≠ EMPTY ∧
        ¬(entry_tag (idx.table (bucket * BUCKET_SIZE + k)) = (h >>> 32) % 2 ^ 32 ∧
          sliceL idx.text (entry_offset (idx.table (bucket * BUCKET_SIZE + k)))
            idx.blockSize = block)) →
      lookupLoop idx block ((h >>> 32) % 2 ^ 32) bucket probes = none) := by
  constructor
  · have := lookupLoopBuckets_le idx block ((h >>> 32) % 2 ^ 32) 5
      0 (h &&& idx.mask) (by omega) (by omega)
    unfold lookupBuckets
    omega
  · intro bucket probes j hj he hk
    exact lookupLoop_empty idx block _ bucket probes hj he hk

theorem claim_C5_lookup_probes_witness :
    lookupBuckets ⟨[], 4, fun _ => EMPTY, 0⟩ [] 0 ≤ 5 ∧
    (∀ bucket probes j, j < BUCKET_SIZE →
      (⟨[], 4, fun _ => EMPTY, 0⟩ : HashIndexM).table (bucket * BUCKET_SIZE + j) = EMPTY →
      (∀ k < j, (⟨[], 4, fun _ => EMPTY, 0⟩ : HashIndexM).table (bucket * BUCKET_SIZE + k) ≠ EMPTY ∧
        ¬(entry_tag ((⟨[], 4, fun _ => EMPTY, 0⟩ : HashIndexM).table (bucket * BUCKET_SIZE + k)) =
            ((0 : Nat) >>> 32) % 2 ^ 32 ∧
          sliceL (⟨[], 4, fun _ => EMPTY, 0⟩ : HashIndexM).text
            (entry_offset ((⟨[], 4, fun _ => EMPTY, 0⟩ : HashIndexM).table (bucket * BUCKET_SIZE + k)))
            (⟨[], 4, fun _ => EMPTY, 0⟩ : HashIndexM).blockSize = [])) →
      lookupLoop ⟨[], 4, fun _ => EMPTY, 0⟩ [] ((0 : Nat) >>> 32 % 2 ^ 2 ^ 5) bucket probes = none) := by
  exact claim_C5_lookup_probes ⟨[], 4, fun _ => EMPTY, 0⟩ [] 0

end Bidiff

namespace Bidiff

theorem bucketScanAux_full_of (text : List Nat) (bs : Nat) (tbl : Nat → Nat)
    (block : List Nat) (tag : Nat)
    (hno : ∀ slot, tbl slot ≠ EMPTY ∧
      ¬(entry_tag (tbl slot) = tag ∧ sliceL text (entry_offset (tbl slot)) bs = block)) :
    ∀ left slot, bucketScanAux text bs tbl block tag slot left = .full := by
  intro left
  induction left with
  | zero => intro slot; rw [bucketScanAux]
  | succ left ih =>
    intro slot
    rw [bucketScanAux]
    rw [if_neg (by simpa using (hno slot).1), if_neg (by simpa using (hno slot).2)]
    exact ih (slot + 1)

theorem lookupLoopBuckets_full (idx : HashIndexM) (block : List Nat) (tag : Nat)
    (hfull : ∀ left slot,
      bucketScanAux idx.text idx.blockSize idx.table block tag slot left = .full) :
    ∀ fuel probes bucket, 5 - probes ≤ fuel → probes ≤ 4 →
      lookupLoopBuckets idx block tag bucket probes = 5 - probes := by
  intro fuel
  induction fuel with
  | zero => intro probes bucket hf hp; omega
  | succ fuel ih =>
    intro probes bucket hf hp
    rw [lookupLoopBuckets]
    rw [hfull BUCKET_SIZE (bucket * BUCKET_SIZE)]
    show (if _ : probes + 1 > 4 then 1
      else 1 + lookupLoopBuckets idx block tag ((bucket + 1) &&& idx.mask) (probes + 1)) =
        5 - probes
    by_cases hpr : probes + 1 > 4
    · rw [dif_pos hpr]
      omega
    · rw [dif_neg hpr]
      rw [ih (probes + 1) ((bucket + 1) &&& idx.mask) (by omega) (by omega)]
      omega

theorem lookupLoop_full (idx : HashIndexM) (block : List Nat) (tag : Nat)
    (hfull : ∀ left slot,
      bucketScanAux idx.text idx.blockSize idx.table block tag slot left = .full) :
    ∀ fuel probes bucket, 5 - probes ≤ fuel → probes ≤ 4 →
      lookupLoop idx block tag bucket probes = none := by
  intro fuel
  induction fuel with
  | zero => intro probes bucket hf hp; omega
  | succ fuel ih =>
    intro probes bucket hf hp
    rw [lookupLoop]
    rw [hfull BUCKET_SIZE (bucket * BUCKET_SIZE)]
    show (if _ : probes + 1 > 4 then none
      else lookupLoop idx block tag ((bucket + 1) &&& idx.mask) (probes + 1)) = none
    by_cases hpr : probes + 1 > 4
    · rw [dif_pos hpr]
    · rw [dif_neg hpr]
      exact ih (probes + 1) ((bucket + 1) &&& idx.mask) (by omega) (by omega)

/-- A populated-looking index whose table has no EMPTY slot and never
matches the probed tag: every bucket scan comes back `.full`. -/
def cexIdx : HashIndexM := ⟨[1, 2, 3, 4], 4, fun _ => 2 ^ 32 + 1, 7⟩

theorem cexIdx_full : ∀ left slot,
    bucketScanAux cexIdx.text cexIdx.blockSize cexIdx.table [9, 9, 9, 9] 0
      slot left = .full := by
  apply bucketScanAux_full_of
  intro slot
  constructor
  · show (2 ^ 32 + 1 : Nat) ≠ EMPTY
    norm_num [EMPTY]
  · intro hc
    have : entry_tag (2 ^ 32 + 1) = 0 := hc.1
    rw [entry_tag, Nat.shiftRight_eq_div_pow] at this
    norm_num at this

/-- C5 counterexample: on this index (a full table with no EMPTY slot and
no matching tag) the probe loop of `lookup_with_hash` scans **5** buckets,
not at most 4, before returning no-match. -/
theorem claim_C5_counterexample :
    lookupBuckets cexIdx [9, 9, 9, 9] 0 = 5 ∧
    ¬ lookupBuckets cexIdx [9, 9, 9, 9] 0 ≤ 4 ∧
    lookup_with_hash cexIdx [9, 9, 9, 9] 0 = none ∧
    (∀ j, cexIdx.table j ≠ EMPTY) := by
  have h5 : lookupBuckets cexIdx [9, 9, 9, 9] 0 = 5 := by
    show lookupLoopBuckets cexIdx [9, 9, 9, 9] (((0 : Nat) >>> 32) % 2 ^ 32)
      ((0 : Nat) &&& cexIdx.mask) 0 = 5
    rw [Nat.zero_shiftRight, Nat.zero_mod, Nat.zero_and]
    rw [lookupLoopBuckets_full cexIdx [9, 9, 9, 9] 0 cexIdx_full 5 0 0
      (by omega) (by omega)]
  refine ⟨h5, by rw [h5]; omega, ?_, ?_⟩
  · show lookupLoop cexIdx [9, 9, 9, 9] (((0 : Nat) >>> 32) % 2 ^ 32)
      ((0 : Nat) &&& cexIdx.mask) 0 = none
    rw [Nat.zero_shiftRight, Nat.zero_mod, Nat.zero_and]
    exact lookupLoop_full cexIdx [9, 9, 9, 9] 0 cexIdx_full 5 0 0 (by omega) (by omega)
  · intro j
    show (2 ^ 32 + 1 : Nat) ≠ EMPTY
    norm_num [EMPTY]

end Bidiff
